import Mathlib

/-!
Verification of the capture-based mock pipeline of the playwright-mocking-lab
repository: a shallow embedding of the JSON data model, the HAR archive model,
the operation extractor, the structural fingerprinter, the drift validator,
the archive merger, and the registry builder, with theorems about them.
-/

set_option maxHeartbeats 1000000
set_option maxRecDepth 1000000

namespace MockPipeline

/-- JSON-like values as produced by JSON.parse, plus the `undefined` value that
field access on a JS object yields for an absent key.  Object fields are kept
in insertion order (the order Object.keys reports). -/
inductive Json where
  | null : Json
  | undefined : Json
  | bool : Bool → Json
  | num : Int → Json
  | str : String → Json
  | arr : List Json → Json
  | obj : List (String × Json) → Json
deriving Repr

mutual

def Json.beq : Json → Json → Bool
  | .null, .null => true
  | .undefined, .undefined => true
  | .bool a, .bool b => a == b
  | .num a, .num b => a == b
  | .str a, .str b => a == b
  | .arr a, .arr b => Json.beqList a b
  | .obj a, .obj b => Json.beqFields a b
  | _, _ => false

def Json.beqList : List Json → List Json → Bool
  | [], [] => true
  | x :: xs, y :: ys => Json.beq x y && Json.beqList xs ys
  | _, _ => false

def Json.beqFields : List (String × Json) → List (String × Json) → Bool
  | [], [] => true
  | (k, v) :: xs, (l, w) :: ys => k == l && Json.beq v w && Json.beqFields xs ys
  | _, _ => false

end

mutual

theorem Json.beq_iff_eq : ∀ a b : Json, Json.beq a b = true ↔ a = b
  | .null, b => by cases b <;> simp [Json.beq]
  | .undefined, b => by cases b <;> simp [Json.beq]
  | .bool a, b => by cases b <;> simp [Json.beq]
  | .num a, b => by cases b <;> simp [Json.beq]
  | .str a, b => by cases b <;> simp [Json.beq]
  | .arr xs, b => by
      cases b <;> simp [Json.beq]
      exact Json.beqList_iff_eq xs _
  | .obj fs, b => by
      cases b <;> simp [Json.beq]
      exact Json.beqFields_iff_eq fs _

theorem Json.beqList_iff_eq : ∀ a b : List Json, Json.beqList a b = true ↔ a = b
  | [], b => by cases b <;> simp [Json.beqList]
  | x :: xs, b => by
      cases b with
      | nil => simp [Json.beqList]
      | cons y ys =>
        simp [Json.beqList, Bool.and_eq_true, Json.beq_iff_eq x y,
          Json.beqList_iff_eq xs ys]

theorem Json.beqFields_iff_eq :
    ∀ a b : List (String × Json), Json.beqFields a b = true ↔ a = b
  | [], b => by cases b <;> simp [Json.beqFields]
  | (k, v) :: xs, b => by
      cases b with
      | nil => simp [Json.beqFields]
      | cons y ys =>
        obtain ⟨l, w⟩ := y
        simp [Json.beqFields, Bool.and_eq_true, Json.beq_iff_eq v w,
          Json.beqFields_iff_eq xs ys, and_assoc]

end

instance : DecidableEq Json := fun a b =>
  decidable_of_iff (Json.beq a b = true) (Json.beq_iff_eq a b)

/-- JS truthiness of a JSON-like value: null, undefined, false, 0 and the
empty string are falsy; every object and array (even empty) is truthy. -/
def jsTruthy : Json → Bool
  | .null => false
  | .undefined => false
  | .bool b => b
  | .num n => n != 0
  | .str s => s != ""
  | .arr _ => true
  | .obj _ => true

/-- JS property access `v[key]` for a JSON value that is not null/undefined:
an object yields the value stored under the key (later duplicate keys win,
matching JSON.parse), anything else yields undefined.  Access on null or
undefined throws in JS; callers model that case explicitly. -/
def Json.getField : Json → String → Json
  | .obj fields, key =>
      match fields.reverse.find? (fun kv => kv.1 == key) with
      | some kv => kv.2
      | none => .undefined
  | _, _ => .undefined

/-- Word character of the JS regex class \w: ASCII letters, digits, underscore. -/
def isWordChar (c : Char) : Bool :=
  (c ≥ 'a' && c ≤ 'z') || (c ≥ 'A' && c ≤ 'Z') || (c ≥ '0' && c ≤ '9') || c == '_'

/-- Whitespace of the JS regex class \s (the ASCII part). -/
def isJsSpace (c : Char) : Bool :=
  c == ' ' || c == '\t' || c == '\n' || c == '\r' || c == '\x0b' || c == '\x0c'

/-- After the keyword of /(?:query|mutation)\s+(\w+)/ has matched, match
\s+(\w+) at the current position and return the captured identifier. -/
def matchNameAfterKeyword (rest : List Char) : Option String :=
  match rest with
  | [] => none
  | c :: _ =>
      if isJsSpace c then
        let w := (rest.dropWhile isJsSpace).takeWhile isWordChar
        if w.isEmpty then none else some (String.mk w)
      else none

/-- Left-to-right scan of the JS regex match
postData.match(/(?:query|mutation)\s+(\w+)/): at each position try the
keyword "query" then "mutation", then \s+(\w+); first full match wins. -/
def firstOpMatchAux : List Char → Option String
  | [] => none
  | c :: cs =>
      let here := c :: cs
      let attempt :=
        if here.take 5 = "query".toList then matchNameAfterKeyword (here.drop 5)
        else if here.take 8 = "mutation".toList then matchNameAfterKeyword (here.drop 8)
        else none
      match attempt with
      | some w => some w
      | none => firstOpMatchAux cs

/-- match[1] of postData.match(/(?:query|mutation)\s+(\w+)/), or none. -/
def firstOpMatch (s : String) : Option String :=
  firstOpMatchAux s.toList

/-- A captured body text together with the outcome JSON.parse has on it.
jsonText raw v models a string raw on which JSON.parse succeeds with value v;
rawText raw models a string on which JSON.parse throws. -/
inductive BodyText where
  | jsonText : String → Json → BodyText
  | rawText : String → BodyText
deriving DecidableEq, Repr

/-- The underlying text of the body. -/
def BodyText.raw : BodyText → String
  | .jsonText s _ => s
  | .rawText s => s

/-- One exchange of a HAR archive, reduced to the fields the pipeline reads:
request.method, request.url, request.postData?.text and response.content.text
(none models an absent text). -/
structure HarEntry where
  method : String
  url : String
  postData : Option BodyText
  responseText : Option BodyText
deriving DecidableEq, Repr

/-- A HAR archive resource: either the file is absent (reading it throws
ENOENT) or it holds the list log.entries. -/
inductive HarInput where
  | absent : HarInput
  | har : List HarEntry → HarInput
deriving DecidableEq, Repr

/-- mock-extractor.ts extractOperationName: read an explicit operationName
field of the JSON-parsed body; otherwise regex-match the query field; on any
throw (unparsable body, property access on null, .match on a non-string) the
catch applies the regex to the raw body text.  Returns a JS value (null when
no name was derived). -/
def extractOperationName (postData : Option BodyText) : Json :=
  match postData with
  | none => .null
  | some bt =>
      if bt.raw == "" then .null
      else
        match bt with
        | .rawText s =>
            match firstOpMatch s with
            | some w => .str w
            | none => .null
        | .jsonText s v =>
            match v with
            | .null =>
                match firstOpMatch s with
                | some w => .str w
                | none => .null
            | _ =>
                let opn := v.getField "operationName"
                if jsTruthy opn then opn
                else
                  let q := v.getField "query"
                  if jsTruthy q then
                    match q with
                    | .str qs =>
                        match firstOpMatch qs with
                        | some w => .str w
                        | none => .null
                    | _ =>
                        match firstOpMatch s with
                        | some w => .str w
                        | none => .null
                  else .null

/-- An extracted operation: name and query text, both JS values as the code
stores them (the query may be undefined when the body has no query field). -/
structure GraphQLOperation where
  operationName : Json
  query : Json
deriving DecidableEq, Repr

/-- The candidate operation one HAR entry contributes in
extractGraphQLOperations, before the seen-set dedup: POST only, body present
and JSON-parsable (a null body throws on property access and is skipped),
name from operationName field or extractOperationName fallback, introspection
and falsy names skipped. -/
def entryOp (e : HarEntry) : Option GraphQLOperation :=
  if e.method != "POST" then none
  else
    match e.postData with
    | none => none
    | some bt =>
        if bt.raw == "" then none
        else
          match bt with
          | .rawText _ => none
          | .jsonText _ v =>
              match v with
              | .null => none
              | _ =>
                  let opn := v.getField "operationName"
                  let operationName :=
                    if jsTruthy opn then opn else extractOperationName e.postData
                  if !(jsTruthy operationName)
                      || operationName == Json.str "IntrospectionQuery" then none
                  else some ⟨operationName, v.getField "query"⟩

/-- The entry loop of extractGraphQLOperations with its seen set. -/
def extractOpsGo : List HarEntry → List Json → List GraphQLOperation
  | [], _ => []
  | e :: rest, seen =>
      match entryOp e with
      | none => extractOpsGo rest seen
      | some op =>
          if op.operationName ∈ seen then extractOpsGo rest seen
          else op :: extractOpsGo rest (op.operationName :: seen)

/-- mock-extractor.ts extractGraphQLOperations: on a missing or unreadable
archive the catch returns the empty list; otherwise walk the entries with a
seen set so the first occurrence of each name wins. -/
def extractGraphQLOperations : HarInput → List GraphQLOperation
  | .absent => []
  | .har entries => extractOpsGo entries []

/-- JS Map.set on an insertion-ordered association list: an existing key keeps
its position and gets the new value, a new key is appended. -/
def jsMapSet {α : Type} : List (Json × α) → Json → α → List (Json × α)
  | [], k, v => [(k, v)]
  | kv :: rest, k, v =>
      if kv.1 == k then (kv.1, v) :: rest else kv :: jsMapSet rest k v

/-- JS Map.get. -/
def jsMapLookup {α : Type} : List (Json × α) → Json → Option α
  | [], _ => none
  | kv :: rest, k => if kv.1 == k then some kv.2 else jsMapLookup rest k

/-- JS Map.has. -/
def jsMapHas {α : Type} (m : List (Json × α)) (k : Json) : Bool :=
  (jsMapLookup m k).isSome

/-- One iteration of the extractGraphQLMocks entry loop: POST only, name via
extractOperationName, introspection skipped, absent or unparsable response
bodies skipped (warned), otherwise Map.set of the parsed response. -/
def mocksStep (m : List (Json × Json)) (e : HarEntry) : List (Json × Json) :=
  if e.method != "POST" then m
  else
    let operationName := extractOperationName e.postData
    if !(jsTruthy operationName) then m
    else if operationName == Json.str "IntrospectionQuery" then m
    else
      match e.responseText with
      | none => m
      | some rt =>
          if rt.raw == "" then m
          else
            match rt with
            | .rawText _ => m
            | .jsonText _ rv => jsMapSet m operationName rv

/-- mock-extractor.ts extractGraphQLMocks: the readFile/JSON.parse of the
archive is not guarded, so an absent archive rejects the promise; otherwise
the entry loop builds the name-to-response map. -/
def extractGraphQLMocks : HarInput → Except String (List (Json × Json))
  | .absent => .error "ENOENT: no such file or directory"
  | .har entries => .ok (entries.foldl mocksStep [])

/-- The operation name the merge logic of record-interactive.ts derives from
an entry: parsed.operationName of the JSON-parsed body.  Unlike the extractor
there is no method check and no regex fallback.  none models the skipped
cases: body absent or empty, JSON.parse throws, or the parse result is null
(property access throws, the catch skips the entry). -/
def rawMergeOpName (e : HarEntry) : Option Json :=
  match e.postData with
  | none => none
  | some bt =>
      if bt.raw == "" then none
      else
        match bt with
        | .rawText _ => none
        | .jsonText _ v =>
            match v with
            | .null => none
            | _ => some (v.getField "operationName")

/-- The guarded key under which the newOpMap records an entry: the raw name
when it is truthy and not IntrospectionQuery. -/
def mergeOpName (e : HarEntry) : Option Json :=
  match rawMergeOpName e with
  | none => none
  | some o =>
      if jsTruthy o && o != Json.str "IntrospectionQuery" then some o else none

/-- One iteration of the newOpMap construction loop (record-interactive.ts):
Map.set, so a later entry with the same name overwrites an earlier one. -/
def newOpMapStep (m : List (Json × HarEntry)) (e : HarEntry) :
    List (Json × HarEntry) :=
  match rawMergeOpName e with
  | none => m
  | some o =>
      if jsTruthy o && o != Json.str "IntrospectionQuery" then jsMapSet m o e
      else m

/-- The operation-name-to-entry lookup built from the new archive. -/
def buildNewOpMap (l : List HarEntry) : List (Json × HarEntry) :=
  l.foldl newOpMapStep []

/-- JS Set.add on a membership list (only membership is ever observed). -/
def jsSetAdd (s : List Json) (j : Json) : List Json :=
  if j ∈ s then s else j :: s

/-- The replace/preserve walk over the existing archive: an entry without a
recognizable name is copied through; an entry whose name is in the new-archive
lookup is substituted by the lookup's entry and the name marked processed;
otherwise the entry is preserved.  Returns (finalEntries prefix, processedOps). -/
def mergeWalk (m : List (Json × HarEntry)) :
    List HarEntry → List Json → List HarEntry × List Json
  | [], processed => ([], processed)
  | e :: rest, processed =>
      match rawMergeOpName e with
      | none =>
          let out := mergeWalk m rest processed
          (e :: out.1, out.2)
      | some o =>
          match jsMapLookup m o with
          | some repl =>
              let out := mergeWalk m rest (jsSetAdd processed o)
              (repl :: out.1, out.2)
          | none =>
              let out := mergeWalk m rest processed
              (e :: out.1, out.2)

/-- The append phase: every not-yet-consumed operation of the new-archive
lookup, in the lookup's insertion order. -/
def mergeAppend (m : List (Json × HarEntry)) (processed : List Json) :
    List HarEntry :=
  (m.filter (fun kv => kv.1 ∉ processed)).map (fun kv => kv.2)

/-- The three-way reconciliation of mergeHarFiles on the two entry lists. -/
def mergeHarEntries (existingEntries newEntries : List HarEntry) :
    List HarEntry :=
  let m := buildNewOpMap newEntries
  let walked := mergeWalk m existingEntries []
  walked.1 ++ mergeAppend m walked.2

/-- Outcome of mergeHarFiles: the new archive file may be absent, it may
contain zero user operations, or a merged entry list is produced. -/
inductive MergeResult where
  | noNewHar : MergeResult
  | noNewOps : MergeResult
  | merged : List HarEntry → MergeResult
deriving DecidableEq, Repr

/-- record-interactive.ts mergeHarFiles: short-circuits when the freshly
recorded archive is absent, or parsed but without user operations; a missing
or unreadable existing archive is treated as empty; otherwise merge. -/
def mergeHarFiles (newInput existingInput : HarInput) : MergeResult :=
  match newInput with
  | .absent => .noNewHar
  | .har newEntries =>
      let newOperations := extractGraphQLOperations (.har newEntries)
      let userOperations := newOperations.filter
        (fun op => op.operationName != Json.str "IntrospectionQuery")
      if userOperations.length = 0 then .noNewOps
      else
        let existingEntries :=
          match existingInput with
          | .absent => []
          | .har es => es
        .merged (mergeHarEntries existingEntries newEntries)

/-- UTF-8 encoding of one character. -/
def charUtf8 (c : Char) : List Nat :=
  let n := c.toNat
  if n < 0x80 then [n]
  else if n < 0x800 then [0xC0 ||| (n >>> 6), 0x80 ||| (n &&& 0x3F)]
  else if n < 0x10000 then
    [0xE0 ||| (n >>> 12), 0x80 ||| ((n >>> 6) &&& 0x3F), 0x80 ||| (n &&& 0x3F)]
  else
    [0xF0 ||| (n >>> 18), 0x80 ||| ((n >>> 12) &&& 0x3F),
     0x80 ||| ((n >>> 6) &&& 0x3F), 0x80 ||| (n &&& 0x3F)]

/-- UTF-8 bytes of a string. -/
def utf8Bytes (s : String) : List Nat :=
  (s.toList.map charUtf8).flatten

/-- The 64 MD5 sine-derived constants. -/
def md5K : List Nat :=
  [0xd76aa478, 0xe8c7b756, 0x242070db, 0xc1bdceee,
   0xf57c0faf, 0x4787c62a, 0xa8304613, 0xfd469501,
   0x698098d8, 0x8b44f7af, 0xffff5bb1, 0x895cd7be,
   0x6b901122, 0xfd987193, 0xa679438e, 0x49b40821,
   0xf61e2562, 0xc040b340, 0x265e5a51, 0xe9b6c7aa,
   0xd62f105d, 0x02441453, 0xd8a1e681, 0xe7d3fbc8,
   0x21e1cde6, 0xc33707d6, 0xf4d50d87, 0x455a14ed,
   0xa9e3e905, 0xfcefa3f8, 0x676f02d9, 0x8d2a4c8a,
   0xfffa3942, 0x8771f681, 0x6d9d6122, 0xfde5380c,
   0xa4beea44, 0x4bdecfa9, 0xf6bb4b60, 0xbebfbc70,
   0x289b7ec6, 0xeaa127fa, 0xd4ef3085, 0x04881d05,
   0xd9d4d039, 0xe6db99e5, 0x1fa27cf8, 0xc4ac5665,
   0xf4292244, 0x432aff97, 0xab9423a7, 0xfc93a039,
   0x655b59c3, 0x8f0ccc92, 0xffeff47d, 0x85845dd1,
   0x6fa87e4f, 0xfe2ce6e0, 0xa3014314, 0x4e0811a1,
   0xf7537e82, 0xbd3af235, 0x2ad7d2bb, 0xeb86d391]

/-- The MD5 per-round left-rotation amounts. -/
def md5S : List Nat :=
  [7, 12, 17, 22, 7, 12, 17, 22, 7, 12, 17, 22, 7, 12, 17, 22,
   5, 9, 14, 20, 5, 9, 14, 20, 5, 9, 14, 20, 5, 9, 14, 20,
   4, 11, 16, 23, 4, 11, 16, 23, 4, 11, 16, 23, 4, 11, 16, 23,
   6, 10, 15, 21, 6, 10, 15, 21, 6, 10, 15, 21, 6, 10, 15, 21]

/-- 32-bit left rotation (the argument is below 2^32). -/
def rotl32 (x s : Nat) : Nat :=
  ((x <<< s) ||| (x >>> (32 - s))) % 4294967296

/-- The MD5 nonlinear function of round i. -/
def md5F (i b c d : Nat) : Nat :=
  if i < 16 then (b &&& c) ||| ((0xffffffff ^^^ b) &&& d)
  else if i < 32 then (d &&& b) ||| ((0xffffffff ^^^ d) &&& c)
  else if i < 48 then b ^^^ c ^^^ d
  else c ^^^ (b ||| (0xffffffff ^^^ d))

/-- The MD5 message-word index of round i. -/
def md5G (i : Nat) : Nat :=
  if i < 16 then i
  else if i < 32 then (5 * i + 1) % 16
  else if i < 48 then (3 * i + 5) % 16
  else (7 * i) % 16

/-- MD5 padding: 0x80, zeros to 56 mod 64, then the bit length as 64 bits
little-endian. -/
def md5Pad (msg : List Nat) : List Nat :=
  let len := msg.length
  let zeros := (119 - (len % 64)) % 64
  let bitLen := (len * 8) % 18446744073709551616
  msg ++ [0x80] ++ List.replicate zeros 0 ++
    (List.range 8).map (fun i => (bitLen >>> (8 * i)) &&& 0xff)

/-- Split the padded message into 64-byte blocks (structural recursion on a
fuel bound so that proofs can evaluate it; the fuel never runs out because
each step consumes at least one byte). -/
def md5BlocksFuel : Nat → List Nat → List (List Nat)
  | 0, _ => []
  | _, [] => []
  | fuel + 1, b :: rest =>
      (b :: rest).take 64 :: md5BlocksFuel fuel ((b :: rest).drop 64)

/-- Split the padded message into 64-byte blocks. -/
def md5Blocks (l : List Nat) : List (List Nat) :=
  md5BlocksFuel l.length l

/-- Little-endian 32-bit word j of a 64-byte block. -/
def blockWord (block : List Nat) (j : Nat) : Nat :=
  block.getD (4 * j) 0 + 256 * block.getD (4 * j + 1) 0 +
    65536 * block.getD (4 * j + 2) 0 + 16777216 * block.getD (4 * j + 3) 0

/-- One MD5 block transformation. -/
def md5ProcessBlock (st : Nat × Nat × Nat × Nat) (block : List Nat) :
    Nat × Nat × Nat × Nat :=
  let r := (List.range 64).foldl
    (fun (acc : Nat × Nat × Nat × Nat) i =>
      let a := acc.1
      let b := acc.2.1
      let c := acc.2.2.1
      let d := acc.2.2.2
      let f := (md5F i b c d + a + md5K.getD i 0 +
        blockWord block (md5G i)) % 4294967296
      (d, (b + rotl32 f (md5S.getD i 0)) % 4294967296, b, c)) st
  ((st.1 + r.1) % 4294967296, (st.2.1 + r.2.1) % 4294967296,
   (st.2.2.1 + r.2.2.1) % 4294967296, (st.2.2.2 + r.2.2.2) % 4294967296)

/-- Hex digit. -/
def hexDigit (n : Nat) : Char :=
  if n < 10 then Char.ofNat (48 + n) else Char.ofNat (87 + n)

/-- Lowercase hex of one byte. -/
def byteHex (b : Nat) : String :=
  String.mk [hexDigit (b / 16 % 16), hexDigit (b % 16)]

/-- Little-endian bytes of a 32-bit word. -/
def le32 (x : Nat) : List Nat :=
  [x % 256, x / 256 % 256, x / 65536 % 256, x / 16777216 % 256]

/-- MD5 of a byte sequence as a lowercase hex string. -/
def md5Hex (msg : List Nat) : String :=
  let st := (md5Blocks (md5Pad msg)).foldl md5ProcessBlock
    (0x67452301, 0xefcdab89, 0x98badcfe, 0x10325476)
  String.join ((le32 st.1 ++ le32 st.2.1 ++ le32 st.2.2.1 ++
    le32 st.2.2.2).map byteHex)

/-- Insert into a sorted list, before the first element not below a. -/
def insertSorted {α : Type} (le : α → α → Bool) (a : α) : List α → List α
  | [] => [a]
  | b :: l => if le a b then a :: b :: l else b :: insertSorted le a l

/-- JS Array.prototype.sort with a comparator, modelled as a stable insertion
sort (structurally recursive so that proofs can evaluate it). -/
def jsSortBy {α : Type} (le : α → α → Bool) : List α → List α
  | [] => []
  | a :: l => insertSorted le a (jsSortBy le l)

/-- Lexicographic comparison of character lists (the order JS string
comparison uses, restricted to the basic plane where code units and code
points agree). -/
def charListLE : List Char → List Char → Bool
  | [], _ => true
  | _ :: _, [] => false
  | a :: as, b :: bs =>
      if a < b then true else if b < a then false else charListLE as bs

/-- Default JS string comparison. -/
def strLE (a b : String) : Bool :=
  charListLE a.toList b.toList

/-- Key comparison used for Object.keys(obj).sort(). -/
def keyLE (a b : String × Json) : Bool :=
  strLE a.1 b.1

mutual

/-- getStructure of generateSchemaHash (mock-extractor.ts): null and undefined
to sentinels, arrays to a two-element marker sampling only the first element
(or an empty sentinel), objects to their keys sorted lexicographically each
mapped to the structure of its value, scalars to their typeof kind.  JS
objects have unique keys, so iterating Object.keys(obj).sort() over obj[key]
equals recursing over the (key, value) pairs and stably sorting by key. -/
def getStructure : Json → Json
  | .null => .str "null"
  | .undefined => .str "undefined"
  | .arr xs => .arr [.str "array", structHead xs]
  | .obj fields => .obj (jsSortBy keyLE (structFields fields))
  | .bool _ => .str "boolean"
  | .num _ => .str "number"
  | .str _ => .str "string"

/-- The second component of the array marker: the empty sentinel, or the
structure of the first element only. -/
def structHead : List Json → Json
  | [] => .str "empty"
  | x :: _ => getStructure x

/-- The recursion of getStructure over an object's (key, value) pairs. -/
def structFields : List (String × Json) → List (String × Json)
  | [] => []
  | (k, v) :: rest => (k, getStructure v) :: structFields rest

end

/-- JSON string escaping as JSON.stringify performs it. -/
def jsonQuoteChar (c : Char) : String :=
  if c = '"' then "\\\""
  else if c = '\\' then "\\\\"
  else if c = '\n' then "\\n"
  else if c = '\r' then "\\r"
  else if c = '\t' then "\\t"
  else if c = '\x08' then "\\b"
  else if c = '\x0c' then "\\f"
  else if c.toNat < 32 then
    "\\u00" ++ String.mk [hexDigit (c.toNat / 16), hexDigit (c.toNat % 16)]
  else String.mk [c]

/-- A JSON string literal. -/
def jsonQuote (s : String) : String :=
  "\"" ++ String.join (s.toList.map jsonQuoteChar) ++ "\""

/-- n spaces. -/
def spaces (n : Nat) : String :=
  String.mk (List.replicate n ' ')

mutual

/-- JSON.stringify(value, null, 2) at nesting depth d.  getStructure emits
only strings, arrays and objects; the remaining cases are the stringify
rendering of the other primitives. -/
def stringifyPretty : Json → Nat → String
  | .null, _ => "null"
  | .undefined, _ => "null"
  | .bool b, _ => if b then "true" else "false"
  | .num n, _ => toString n
  | .str s, _ => jsonQuote s
  | .arr xs, d => stringifyArr xs d
  | .obj fs, d => stringifyObj fs d

/-- An array: empty brackets, or the items each indented one level deeper and
joined with comma-newline. -/
def stringifyArr : List Json → Nat → String
  | [], _ => "[]"
  | x :: xs, d =>
      "[\n" ++ spaces (2 * (d + 1)) ++ stringifyPretty x (d + 1) ++
        stringifyItemsRest xs (d + 1) ++ "\n" ++ spaces (2 * d) ++ "]"

/-- The remaining items, each preceded by comma-newline and its indent. -/
def stringifyItemsRest : List Json → Nat → String
  | [], _ => ""
  | x :: xs, d =>
      ",\n" ++ spaces (2 * d) ++ stringifyPretty x d ++ stringifyItemsRest xs d

/-- An object: empty braces, or the members each indented one level deeper
and joined with comma-newline. -/
def stringifyObj : List (String × Json) → Nat → String
  | [], _ => "\x7b\x7d"
  | (k, v) :: fs, d =>
      "\x7b\n" ++ spaces (2 * (d + 1)) ++ jsonQuote k ++ ": " ++
        stringifyPretty v (d + 1) ++ stringifyFieldsRest fs (d + 1) ++ "\n" ++
        spaces (2 * d) ++ "\x7d"

/-- The remaining members, each preceded by comma-newline and its indent. -/
def stringifyFieldsRest : List (String × Json) → Nat → String
  | [], _ => ""
  | (k, v) :: fs, d =>
      ",\n" ++ spaces (2 * d) ++ jsonQuote k ++ ": " ++ stringifyPretty v d ++
        stringifyFieldsRest fs d

end

/-- generateSchemaHash (mock-extractor.ts): the MD5 hex digest of the
pretty-printed canonical structure of the response. -/
def generateSchemaHash (response : Json) : String :=
  md5Hex (utf8Bytes (stringifyPretty (getStructure response) 0))

/-- JS Set.add modelled on a duplicate-free list kept in insertion order. -/
def strSetAdd (acc : List String) (s : String) : List String :=
  if s ∈ acc then acc else acc ++ [s]

/-- Adding every element of a set to another (forEach add). -/
def strSetUnion (acc : List String) (l : List String) : List String :=
  l.foldl strSetAdd acc

mutual

/-- extractFieldPaths (validate-mocks.ts): null/undefined contribute nothing;
for an array EVERY item is analysed under the unchanged prefix (the comment
says: to catch all possible fields); for an object each key contributes the
dot-joined path itself plus the recursion into its value; scalars contribute
nothing. -/
def extractFieldPaths (data : Json) (pre : String) : List String :=
  match data with
  | .null => []
  | .undefined => []
  | .arr xs => efpArr xs pre []
  | .obj fields => efpObj fields pre []
  | .bool _ => []
  | .num _ => []
  | .str _ => []

/-- The forEach over an array's items. -/
def efpArr : List Json → String → List String → List String
  | [], _, acc => acc
  | x :: xs, pre, acc => efpArr xs pre (strSetUnion acc (extractFieldPaths x pre))

/-- The forEach over an object's keys. -/
def efpObj : List (String × Json) → String → List String → List String
  | [], _, acc => acc
  | (k, v) :: fs, pre, acc =>
      let fieldPath := if pre == "" then k else pre ++ "." ++ k
      efpObj fs pre
        (strSetUnion (strSetAdd acc fieldPath) (extractFieldPaths v fieldPath))

end

/-- Result of compareSchemas. -/
structure SchemaComparison where
  added : List String
  removed : List String
  unchanged : List String
deriving DecidableEq, Repr

/-- compareSchemas (validate-mocks.ts): fields present live but not in the
mock are added, fields present in the mock but not live are removed, each
list sorted for determinism. -/
def compareSchemas (mockData liveData : Json) : SchemaComparison :=
  let mockFields := extractFieldPaths mockData ""
  let liveFields := extractFieldPaths liveData ""
  let added := liveFields.filter (fun f => f ∉ mockFields)
  let unchanged := liveFields.filter (fun f => f ∈ mockFields)
  let removed := mockFields.filter (fun f => f ∉ liveFields)
  ⟨jsSortBy strLE added, jsSortBy strLE removed, jsSortBy strLE unchanged⟩

/-- The four validation statuses. -/
inductive VStatus where
  | ok : VStatus
  | drift : VStatus
  | error : VStatus
  | removed : VStatus
deriving DecidableEq, Repr

/-- One per-operation validation result. -/
structure ValidationResult where
  operationName : Json
  status : VStatus
  message : String
  added : Option (List String)
  removed : Option (List String)
deriving DecidableEq, Repr

/-- The observable outcome of the fetch inside queryLiveServer: the transport
may throw, the HTTP response may be non-ok, or a JSON body is delivered. -/
inductive FetchOutcome where
  | transportError : String → FetchOutcome
  | httpNotOk : Nat → FetchOutcome
  | ok : Json → FetchOutcome
deriving DecidableEq, Repr

/-- The object queryLiveServer resolves with; an absent property is undefined. -/
structure LiveReply where
  data : Json
  errors : Json
deriving DecidableEq, Repr

/-- queryLiveServer (validate-mocks.ts): a thrown fetch or a non-ok HTTP
status yields a one-element errors array carrying the message; a truthy
errors member of the body is passed through; otherwise the body's data member
is returned.  Reading .errors on a null body throws and is caught. -/
def queryLiveServer : FetchOutcome → LiveReply
  | .transportError msg =>
      ⟨.undefined, .arr [.obj [("message", .str msg)]]⟩
  | .httpNotOk status =>
      ⟨.undefined, .arr [.obj [("message", .str ("HTTP " ++ toString status))]]⟩
  | .ok json =>
      match json with
      | .null =>
          ⟨.undefined, .arr [.obj [("message", .str "Cannot read properties of null")]]⟩
      | _ =>
          let errs := json.getField "errors"
          if jsTruthy errs then ⟨.undefined, errs⟩
          else ⟨json.getField "data", .undefined⟩

mutual

/-- JS string coercion as Array.join applies it to elements (null and
undefined render empty there). -/
def jsJoinStr : Json → String
  | .null => ""
  | .undefined => ""
  | .bool b => if b then "true" else "false"
  | .num n => toString n
  | .str s => s
  | .arr xs => jsJoinList xs
  | .obj _ => "[object Object]"

/-- Elements of an array joined with commas. -/
def jsJoinList : List Json → String
  | [] => ""
  | [x] => jsJoinStr x
  | x :: y :: rest => jsJoinStr x ++ "," ++ jsJoinList (y :: rest)

end

/-- One pass of errors.map(e => e.message): reading .message on a null or
undefined element throws a TypeError (none); any other element yields its
message property, rendered by join's string coercion. -/
def mapMessageList : List Json → Option (List String)
  | [] => some []
  | .null :: _ => none
  | .undefined :: _ => none
  | e :: rest =>
      (mapMessageList rest).map (fun ms => jsJoinStr (e.getField "message") :: ms)

/-- errors.map(e => e.message).join(", ") of the ERROR branch, which runs
unguarded: a truthy errors value that is not an array has no .map (TypeError),
and a null or undefined array element throws inside the callback; either way
the exception escapes the loop (none) since the loop has no try/catch. -/
def errorMessages : Json → Option (List String)
  | .arr es => mapMessageList es
  | _ => none

/-- The per-operation classification of the validateMocks loop: a falsy mock
payload is DRIFT with the mock-missing message and nothing else happens; a
truthy errors member of the live reply is ERROR with the joined messages,
unless reading the messages throws, in which case the TypeError escapes and
no result is produced (none); a falsy data member is REMOVED; otherwise the
schema comparison decides OK versus DRIFT with the sorted added/removed
lists attached. -/
def classifyOperation (operationName mockData : Json) (fetch : FetchOutcome) :
    Option ValidationResult :=
  if !(jsTruthy mockData) then
    some ⟨operationName, .drift, "Mock file not found or couldn't parse data",
      none, none⟩
  else
    let liveResult := queryLiveServer fetch
    if jsTruthy liveResult.errors then
      match errorMessages liveResult.errors with
      | none => none
      | some msgs =>
          some ⟨operationName, .error,
            "Live server returned errors: " ++ String.intercalate ", " msgs,
            none, none⟩
    else if !(jsTruthy liveResult.data) then
      some ⟨operationName, .removed, "Operation may have been removed from API",
        none, none⟩
    else
      let comparison := compareSchemas mockData liveResult.data
      if comparison.added.length = 0 ∧ comparison.removed.length = 0 then
        some ⟨operationName, .ok, "Schema matches - all fields present",
          none, none⟩
      else
        let changes :=
          (if comparison.added.length > 0 then
            [toString comparison.added.length ++ " added"] else []) ++
          (if comparison.removed.length > 0 then
            [toString comparison.removed.length ++ " removed"] else [])
        some ⟨operationName, .drift,
          "Schema drift: " ++ String.intercalate ", " changes,
          some comparison.added, some comparison.removed⟩

/-- The for-of loop over the user operations: a thrown classification aborts
the remaining iterations and the whole run (none). -/
def validateLoop (mockLookup : Json → Json)
    (live : Json → Json → FetchOutcome) :
    List GraphQLOperation → Option (List ValidationResult)
  | [] => some []
  | op :: rest =>
      match classifyOperation op.operationName (mockLookup op.operationName)
          (live op.operationName op.query) with
      | none => none
      | some r => (validateLoop mockLookup live rest).map (fun rs => r :: rs)

/-- validateMocks (validate-mocks.ts): operations extracted from the archive,
introspection filtered, each classified in order against the mock lookup and
the live endpoint (both external collaborators, passed as functions); a
TypeError thrown in the loop rejects the promise with no result list. -/
def validateMocks (input : HarInput) (mockLookup : Json → Json)
    (live : Json → Json → FetchOutcome) : Option (List ValidationResult) :=
  let operations := extractGraphQLOperations input
  let userOperations := operations.filter
    (fun op => op.operationName != Json.str "IntrospectionQuery")
  validateLoop mockLookup live userOperations

/-- JS String.replace with a string pattern: replace the first occurrence. -/
def replaceFirstAux (pat repl : List Char) : List Char → List Char
  | [] => []
  | c :: cs =>
      if (c :: cs).take pat.length = pat then repl ++ (c :: cs).drop pat.length
      else c :: replaceFirstAux pat repl cs

/-- file.replace(".mock.ts", "") of update-registry.ts. -/
def mockBaseName (f : String) : String :=
  String.mk (replaceFirstAux ".mock.ts".toList [] f.toList)

/-- String suffix test (extensionally String.endsWith, stated over the
character list so that proofs can evaluate it). -/
def strEndsWith (s post : String) : Bool :=
  let cs := s.toList
  let ps := post.toList
  decide (ps.length ≤ cs.length) && decide (cs.drop (cs.length - ps.length) = ps)

/-- The filter of update-registry.ts selecting mock artifact files. -/
def isMockFile (f : String) : Bool :=
  strEndsWith f ".mock.ts" && f != "mock-registry.ts"

/-- updateMockRegistry (update-registry.ts) modelled on the registry's key
structure: list the artifact directory, keep the sorted *.mock.ts files; with
ZERO mock files the function logs a warning and returns without rewriting the
registry, so the previously generated registry file stays as it was;
otherwise the regenerated registry maps each base name to its imported mock
export variable. -/
def updateMockRegistry (files : List String)
    (prevRegistry : List (String × String)) : List (String × String) :=
  let mockFiles := jsSortBy strLE (files.filter isMockFile)
  if mockFiles.length = 0 then prevRegistry
  else mockFiles.map (fun f => (mockBaseName f, mockBaseName f ++ "Mock"))

/-- listMocks (mock-registry.ts): the keys of the registry map. -/
def listMocks (registry : List (String × String)) : List String :=
  registry.map Prod.fst

instance {ε α : Type} [DecidableEq ε] [DecidableEq α] :
    DecidableEq (Except ε α) := fun a b =>
  match a, b with
  | .ok x, .ok y => decidable_of_iff (x = y) (by simp)
  | .error x, .error y => decidable_of_iff (x = y) (by simp)
  | .ok _, .error _ => isFalse (by simp)
  | .error _, .ok _ => isFalse (by simp)

/-! ### Concrete fixtures -/

/-- Stored mock payload of the drift scenario. -/
def mockCountryUS : Json :=
  .obj [("country", .obj [("code", .str "US"), ("name", .str "United States")])]

/-- Live payload of the drift scenario: one extra nested field. -/
def liveCountryUS : Json :=
  .obj [("country", .obj [("code", .str "US"), ("name", .str "United States"),
    ("capital", .str "Washington D.C.")])]

/-- First capture of operation GetA in a new archive. -/
def harEntryA1 : HarEntry :=
  ⟨"POST", "https://api.example/graphql",
   some (.jsonText "body1" (.obj [("operationName", .str "GetA"),
     ("query", .str "query GetA v1")])),
   some (.jsonText "resp1" (.obj [("data", .num 1)]))⟩

/-- Second capture of the same operation GetA, a different exchange. -/
def harEntryA2 : HarEntry :=
  ⟨"POST", "https://api.example/graphql",
   some (.jsonText "body2" (.obj [("operationName", .str "GetA"),
     ("query", .str "query GetA v2")])),
   some (.jsonText "resp2" (.obj [("data", .num 2)]))⟩

/-- An entry for GetA in the existing archive. -/
def harEntryA0 : HarEntry :=
  ⟨"POST", "https://api.example/graphql",
   some (.jsonText "body0" (.obj [("operationName", .str "GetA"),
     ("query", .str "query GetA v0")])),
   some (.jsonText "resp0" (.obj [("data", .num 0)]))⟩

/-! ### C2 -/

/-- C2: in the concrete drift scenario (mock stores the US country object
with code and name, live additionally returns capital, no errors) the
validator classifies the operation as DRIFT with addedFields exactly
["country.capital"] and removedFields [], both sorted. -/
theorem drift_added_field_concrete :
    classifyOperation (Json.str "GetCountry") mockCountryUS
        (.ok (.obj [("data", liveCountryUS)])) =
      some ⟨Json.str "GetCountry", .drift, "Schema drift: 1 added",
        some ["country.capital"], some []⟩ := by
  decide

/-! ### C5 -/

/-- C5 counterexample: the response-map entry point does not recover from an
absent archive; extractGraphQLMocks rejects instead of returning an empty
map, so the claim that every extraction entry point returns an empty result
is false. -/
theorem extractGraphQLMocks_absent_archive_fails :
    (extractGraphQLMocks .absent).isOk = false := by
  decide

/-- C5 amended: an absent archive is recoverable for the operation-list entry
point (extractGraphQLOperations returns the empty list), while
extractGraphQLMocks propagates the read failure. -/
theorem absent_archive_amended :
    extractGraphQLOperations .absent = [] ∧
      (extractGraphQLMocks .absent).isOk = false := by
  exact ⟨rfl, by decide⟩

/-! ### C10 counterexample -/

/-- C10 counterexample: with zero artifact files present, updateMockRegistry
returns without rewriting, so the previously generated registry (here holding
the stale key "Stale") survives and listMocks is not empty, contradicting the
claim that the rebuilt registry key set always equals the artifact set. -/
theorem registry_zero_artifacts_counterexample :
    listMocks (updateMockRegistry [] [("Stale", "StaleMock")]) = ["Stale"] := by
  decide

/-! ### C1 counterexample -/

/-- C1 counterexample: the new archive contains two exchanges for GetA, in
order harEntryA1 then harEntryA2; the lookup maps GetA to the LATER exchange
(Map.set overwrites), and merging replaces the existing GetA entry with
harEntryA2, not with the first occurrence harEntryA1. -/
theorem newOpMap_first_occurrence_counterexample :
    jsMapLookup (buildNewOpMap [harEntryA1, harEntryA2]) (.str "GetA") =
        some harEntryA2 ∧
      harEntryA1 ≠ harEntryA2 ∧
      mergeHarFiles (.har [harEntryA1, harEntryA2]) (.har [harEntryA0]) =
        .merged [harEntryA2] := by
  decide

/-! ### C4 counterexample -/

/-- C4 counterexample: on the same duplicate-name archive the response map
keeps the response of the LAST occurrence of GetA while extractGraphQLOperations
represents GetA by the FIRST exchange (its query is the v1 text), so the two
entry points disagree on the representative exchange and first-occurrence
retention is false for the response map. -/
theorem mocks_map_first_occurrence_counterexample :
    extractGraphQLMocks (.har [harEntryA1, harEntryA2]) =
        .ok [(Json.str "GetA", Json.obj [("data", Json.num 2)])] ∧
      (extractGraphQLOperations (.har [harEntryA1, harEntryA2])).map
          (fun op => op.query) = [Json.str "query GetA v1"] := by
  decide

/-! ### Association-map lemmas -/

theorem jsMapLookup_set {α : Type} (m : List (Json × α)) (k j : Json) (v : α) :
    jsMapLookup (jsMapSet m k v) j = if k = j then some v else jsMapLookup m j := by
  induction m with
  | nil =>
      by_cases h : k = j <;> simp [jsMapSet, jsMapLookup, h]
  | cons kv rest ih =>
      by_cases hk : kv.1 = k
      · by_cases hj : k = j <;>
          simp [jsMapSet, jsMapLookup, hk, hj]
      · by_cases hj : kv.1 = j
        · have h1 : ¬ k = j := fun h => hk (hj.trans h.symm)
          have h2 : ¬ j = k := fun h => hk (hj.trans h)
          simp [jsMapSet, jsMapLookup, hk, hj, h1, h2]
        · simp [jsMapSet, jsMapLookup, hk, hj, ih]

/-- A guarded Map.set folding step. -/
def setStep {β α : Type} (f : β → Option (Json × α))
    (acc : List (Json × α)) (e : β) : List (Json × α) :=
  match f e with
  | some kv => jsMapSet acc kv.1 kv.2
  | none => acc

/-- Lookup after a fold of guarded Map.set steps: the value of the LAST
element that sets the key, else the initial map's value. -/
theorem foldl_setStep_lookup {β α : Type} (f : β → Option (Json × α)) :
    ∀ (l : List β) (m : List (Json × α)) (j : Json),
      jsMapLookup (l.foldl (setStep f) m) j =
        match ((l.filterMap f).filter (fun kv => kv.1 == j)).getLast? with
        | some kv => some kv.2
        | none => jsMapLookup m j := by
  intro l
  induction l with
  | nil => intro m j; rfl
  | cons e rest ih =>
      intro m j
      simp only [List.foldl_cons, List.filterMap_cons, setStep]
      cases hf : f e with
      | none => exact ih m j
      | some kv =>
          by_cases hj : kv.1 = j
          · simp only [List.filter_cons, hj, beq_self_eq_true, if_pos, ih]
            cases hlast : ((rest.filterMap f).filter (fun kv => kv.1 == j)).getLast? with
            | some kv2 =>
                simp [List.getLast?_cons, hlast]
            | none =>
                have hnil : (rest.filterMap f).filter (fun kv => kv.1 == j) = [] := by
                  cases hc : (rest.filterMap f).filter (fun kv => kv.1 == j) with
                  | nil => rfl
                  | cons x xs => rw [hc] at hlast; simp [List.getLast?_cons] at hlast
                simp [hnil, jsMapLookup_set, hj]
          · have hj2 : (kv.1 == j) = false := by simp [hj]
            simp only [List.filter_cons, hj2, if_neg, Bool.false_eq_true,
              not_false_iff, ih]
            cases hlast : ((rest.filterMap f).filter (fun kv => kv.1 == j)).getLast? with
            | some kv2 => simp
            | none => simp [jsMapLookup_set, hj]

/-- newOpMapStep is a guarded Map.set keyed by mergeOpName. -/
theorem newOpMapStep_eq (m : List (Json × HarEntry)) (e : HarEntry) :
    newOpMapStep m e =
      setStep (fun e => (mergeOpName e).map (fun o => (o, e))) m e := by
  cases h : rawMergeOpName e with
  | none => simp [newOpMapStep, setStep, mergeOpName, h]
  | some o =>
      by_cases hg : (jsTruthy o && o != Json.str "IntrospectionQuery") = true <;>
        simp [newOpMapStep, setStep, mergeOpName, h, hg]

/-- Filtering the name-keyed pairs for one key equals filtering the entries
by that merge name. -/
theorem filterMap_mergeName_filter (l : List HarEntry) (j : Json) :
    ((l.filterMap (fun e => (mergeOpName e).map (fun o => (o, e)))).filter
        (fun kv => kv.1 == j)) =
      (l.filter (fun e => mergeOpName e == some j)).map (fun e => (j, e)) := by
  induction l with
  | nil => rfl
  | cons e rest ih =>
      cases ho : mergeOpName e with
      | none => simpa [List.filterMap_cons, List.filter_cons, ho] using ih
      | some o =>
          by_cases hoj : o = j
          · simp [List.filterMap_cons, List.filter_cons, ho, hoj, ih]
          · simp [List.filterMap_cons, List.filter_cons, ho, hoj, ih]

/-- C1 amended (the merge lookup keeps the LAST occurrence): for every list
of newly captured entries and every name, the new-archive lookup maps the
name to the last entry of the new archive carrying that operation name (not
the first), because Map.set overwrites on repeats; a brand-new or matching
name is therefore always represented by its latest capture. -/
theorem newOpMap_last_occurrence_wins (l : List HarEntry) (j : Json) :
    jsMapLookup (buildNewOpMap l) j =
      (l.filter (fun e => mergeOpName e == some j)).getLast? := by
  have hfun : buildNewOpMap l =
      l.foldl (setStep (fun e => (mergeOpName e).map (fun o => (o, e)))) [] := by
    unfold buildNewOpMap
    congr 1
    funext acc e
    exact newOpMapStep_eq acc e
  have key := foldl_setStep_lookup (fun e => (mergeOpName e).map (fun o => (o, e))) l [] j
  rw [hfun]
  refine key.trans ?_
  rw [filterMap_mergeName_filter, List.getLast?_map]
  cases (l.filter (fun e => mergeOpName e == some j)).getLast? <;> simp [jsMapLookup]

/-- The key-value pair one entry contributes to the extractGraphQLMocks map:
the filtering of the loop (POST, derivable non-introspection name, present
and parsable response body). -/
def mocksEntryKV (e : HarEntry) : Option (Json × Json) :=
  if e.method != "POST" then none
  else
    let operationName := extractOperationName e.postData
    if !(jsTruthy operationName) then none
    else if operationName == Json.str "IntrospectionQuery" then none
    else
      match e.responseText with
      | none => none
      | some rt =>
          if rt.raw == "" then none
          else
            match rt with
            | .rawText _ => none
            | .jsonText _ rv => some (operationName, rv)

/-- mocksStep is a guarded Map.set keyed and valued by mocksEntryKV. -/
theorem mocksStep_eq (m : List (Json × Json)) (e : HarEntry) :
    mocksStep m e = setStep mocksEntryKV m e := by
  by_cases hm : (e.method != "POST") = true
  · simp [mocksStep, setStep, mocksEntryKV, hm]
  · by_cases ht : (!(jsTruthy (extractOperationName e.postData))) = true
    · simp [mocksStep, setStep, mocksEntryKV, hm, ht]
    · by_cases hi : (extractOperationName e.postData == Json.str "IntrospectionQuery") = true
      · simp [mocksStep, setStep, mocksEntryKV, hm, ht, hi]
      · cases hrt : e.responseText with
        | none => simp [mocksStep, setStep, mocksEntryKV, hm, ht, hi, hrt]
        | some rt =>
            by_cases hr : (rt.raw == "") = true
            · cases rt <;>
                simp [mocksStep, setStep, mocksEntryKV, hm, ht, hi, hrt, hr]
            · cases rt <;>
                simp [mocksStep, setStep, mocksEntryKV, hm, ht, hi, hrt, hr]

/-- C4 amended: extractGraphQLMocks applies the same per-exchange filtering
(body-bearing POST, introspection excluded, absent or unparsable responses
dropped) but when a name repeats it retains the response of the LAST
occurrence (Map.set overwrites earlier ones), so on duplicate-name archives
it can disagree with extractOperations, which keeps the first exchange. -/
theorem extractGraphQLMocks_keeps_last_occurrence (l : List HarEntry) (k : Json) :
    (match extractGraphQLMocks (.har l) with
      | .ok m => jsMapLookup m k
      | .error _ => none) =
      (((l.filterMap mocksEntryKV).filter (fun kv => kv.1 == k)).getLast?).map
        Prod.snd := by
  show jsMapLookup (l.foldl mocksStep []) k = _
  have hfun : l.foldl mocksStep [] = l.foldl (setStep mocksEntryKV) [] := by
    congr 1
    funext acc e
    exact mocksStep_eq acc e
  have key := foldl_setStep_lookup mocksEntryKV l [] k
  rw [hfun]
  refine key.trans ?_
  cases ((l.filterMap mocksEntryKV).filter (fun kv => kv.1 == k)).getLast? <;>
    simp [jsMapLookup]

/-! ### C7 -/

/-- C7 counterexample: a truthy structured error payload does not always give
an ERROR result: when the live body carries errors that are not an array, or
an array holding a null element, errors.map(e => e.message) throws a
TypeError that no try/catch intercepts, so the validation run aborts with no
per-operation result at all. -/
theorem validator_error_crash_counterexample :
    jsTruthy ((queryLiveServer
        (.ok (.obj [("errors", .str "oops")]))).errors) = true ∧
      classifyOperation (Json.str "Op") mockCountryUS
        (.ok (.obj [("errors", .str "oops")])) = none ∧
      classifyOperation (Json.str "Op") mockCountryUS
        (.ok (.obj [("errors", .arr [.null])])) = none := by
  refine ⟨by decide, by decide, by decide⟩

/-- C7 (amended): the per-operation drift classification follows the
precedence of the spec while the error payload is readable: a stored mock
payload that cannot be obtained gives DRIFT with the mock-missing message and
the live outcome is never consulted; otherwise a truthy errors member whose
messages can be read gives ERROR carrying the joined failure message(s) —
transport and HTTP failures always fall here — but a truthy errors member
whose messages cannot be read (not an array, or a null/undefined element)
throws and yields no result; otherwise a falsy data payload (null or absent,
never an object, so an empty object does not qualify) gives REMOVED; only
otherwise is the field-path comparison performed, deciding OK or DRIFT. -/
theorem validator_classification_precedence :
    (∀ (n mock : Json) (f g : FetchOutcome), jsTruthy mock = false →
        classifyOperation n mock f = classifyOperation n mock g ∧
        classifyOperation n mock f =
          some ⟨n, .drift, "Mock file not found or couldn't parse data",
            none, none⟩) ∧
    (∀ (n mock : Json) (f : FetchOutcome) (msgs : List String),
        jsTruthy mock = true →
        jsTruthy (queryLiveServer f).errors = true →
        errorMessages (queryLiveServer f).errors = some msgs →
        classifyOperation n mock f =
          some ⟨n, .error,
            "Live server returned errors: " ++ String.intercalate ", " msgs,
            none, none⟩) ∧
    (∀ (n mock : Json) (f : FetchOutcome), jsTruthy mock = true →
        jsTruthy (queryLiveServer f).errors = true →
        errorMessages (queryLiveServer f).errors = none →
        classifyOperation n mock f = none) ∧
    (∀ (n mock : Json) (msg : String), jsTruthy mock = true →
        (classifyOperation n mock (.transportError msg)).map
          ValidationResult.status = some VStatus.error) ∧
    (∀ (n mock : Json) (st : Nat), jsTruthy mock = true →
        (classifyOperation n mock (.httpNotOk st)).map
          ValidationResult.status = some VStatus.error) ∧
    (∀ (n mock : Json) (f : FetchOutcome), jsTruthy mock = true →
        jsTruthy (queryLiveServer f).errors = false →
        jsTruthy (queryLiveServer f).data = false →
        classifyOperation n mock f =
          some ⟨n, .removed, "Operation may have been removed from API",
            none, none⟩) ∧
    (∀ (n mock : Json) (f : FetchOutcome), jsTruthy mock = true →
        jsTruthy (queryLiveServer f).errors = false →
        jsTruthy (queryLiveServer f).data = true →
        (classifyOperation n mock f).map ValidationResult.status =
          some (if (compareSchemas mock (queryLiveServer f).data).added.length = 0 ∧
              (compareSchemas mock (queryLiveServer f).data).removed.length = 0
            then VStatus.ok else VStatus.drift)) := by
  refine ⟨?_, ?_, ?_, ?_, ?_, ?_, ?_⟩
  · intro n mock f g h
    constructor <;> simp [classifyOperation, h]
  · intro n mock f msgs h he hm
    simp [classifyOperation, h, he, hm]
  · intro n mock f h he hm
    simp [classifyOperation, h, he, hm]
  · intro n mock msg h
    have ha : jsTruthy (Json.arr [Json.obj [("message", Json.str msg)]]) = true := rfl
    have hm : errorMessages
        (Json.arr [Json.obj [("message", Json.str msg)]]) = some [msg] := rfl
    simp [classifyOperation, queryLiveServer, h, ha, hm]
  · intro n mock st h
    have ha : jsTruthy
        (Json.arr [Json.obj [("message", Json.str ("HTTP " ++ toString st))]]) = true := rfl
    have hm : errorMessages
        (Json.arr [Json.obj [("message", Json.str ("HTTP " ++ toString st))]]) =
        some ["HTTP " ++ toString st] := rfl
    simp [classifyOperation, queryLiveServer, h, ha, hm]
  · intro n mock f h he hd
    simp [classifyOperation, h, he, hd]
  · intro n mock f h he hd
    simp [classifyOperation, h, he, hd]
    split <;> simp_all

/-- C7 witness: concrete instantiations of each classification branch,
including the readable-errors ERROR branch and the crashing one. -/
theorem validator_classification_precedence_witness :
    classifyOperation (Json.str "Op") Json.null (.transportError "x") =
        some ⟨Json.str "Op", .drift,
          "Mock file not found or couldn't parse data", none, none⟩ ∧
      classifyOperation (Json.str "Op") mockCountryUS
          (.ok (.obj [("errors", .arr [.obj [("message", .str "bad")]])])) =
        some ⟨Json.str "Op", .error,
          "Live server returned errors: " ++ String.intercalate ", " ["bad"],
          none, none⟩ ∧
      classifyOperation (Json.str "Op") mockCountryUS
          (.ok (.obj [("errors", .num 1)])) = none ∧
      (classifyOperation (Json.str "Op") mockCountryUS
          (.transportError "refused")).map ValidationResult.status =
        some VStatus.error ∧
      (classifyOperation (Json.str "Op") mockCountryUS (.httpNotOk 500)).map
          ValidationResult.status = some VStatus.error ∧
      classifyOperation (Json.str "Op") mockCountryUS
          (.ok (.obj [("data", .null)])) =
        some ⟨Json.str "Op", .removed,
          "Operation may have been removed from API", none, none⟩ := by
  refine ⟨?_, ?_, ?_, ?_, ?_, ?_⟩
  · exact (validator_classification_precedence.1 (Json.str "Op") Json.null
      (.transportError "x") (.httpNotOk 1) (by decide)).2
  · exact validator_classification_precedence.2.1 (Json.str "Op") mockCountryUS
      (.ok (.obj [("errors", .arr [.obj [("message", .str "bad")]])])) ["bad"]
      (by decide) (by decide) (by decide)
  · exact validator_classification_precedence.2.2.1 (Json.str "Op")
      mockCountryUS (.ok (.obj [("errors", .num 1)])) (by decide) (by decide)
      (by decide)
  · exact validator_classification_precedence.2.2.2.1 (Json.str "Op")
      mockCountryUS "refused" (by decide)
  · exact validator_classification_precedence.2.2.2.2.1 (Json.str "Op")
      mockCountryUS 500 (by decide)
  · exact validator_classification_precedence.2.2.2.2.2.1 (Json.str "Op")
      mockCountryUS (.ok (.obj [("data", .null)])) (by decide) (by decide)
      (by decide)

/-! ### Sorting lemmas -/

theorem insertSorted_perm {α : Type} (le : α → α → Bool) (a : α) (l : List α) :
    (insertSorted le a l).Perm (a :: l) := by
  induction l with
  | nil => exact List.Perm.refl _
  | cons b t ih =>
      by_cases h : le a b = true
      · simp [insertSorted, h]
      · simp only [insertSorted, h, Bool.false_eq_true, if_neg, not_false_iff]
        exact (ih.cons b).trans (List.Perm.swap a b t)

theorem jsSortBy_perm {α : Type} (le : α → α → Bool) (l : List α) :
    (jsSortBy le l).Perm l := by
  induction l with
  | nil => exact List.Perm.refl _
  | cons a t ih =>
      exact (insertSorted_perm le a (jsSortBy le t)).trans (ih.cons a)

theorem mem_jsSortBy {α : Type} {le : α → α → Bool} {x : α} {l : List α} :
    x ∈ jsSortBy le l ↔ x ∈ l :=
  (jsSortBy_perm le l).mem_iff

/-! ### C10 amended -/

/-- C10 amended: after a rebuild that found at least one artifact file, the
registry's key set (what listMocks reports) equals exactly the base names of
the *.mock.ts artifact files present — no orphaned and no missing keys; but
when ZERO artifacts exist the rebuild returns early without rewriting, so the
previously generated registry (possibly non-empty) stays in place. -/
theorem registry_keys_amended (files : List String)
    (prev : List (String × String)) :
    (files.filter isMockFile ≠ [] →
      ∀ k, k ∈ listMocks (updateMockRegistry files prev) ↔
        ∃ f ∈ files, isMockFile f = true ∧ mockBaseName f = k) ∧
    (files.filter isMockFile = [] → updateMockRegistry files prev = prev) := by
  constructor
  · intro hne k
    have hlen : (jsSortBy strLE (files.filter isMockFile)).length =
        (files.filter isMockFile).length :=
      (jsSortBy_perm strLE (files.filter isMockFile)).length_eq
    have hlen0 : ¬ (jsSortBy strLE (files.filter isMockFile)).length = 0 := by
      rw [hlen]
      simpa [List.length_eq_zero] using hne
    unfold updateMockRegistry listMocks
    simp only [hlen0, if_neg, not_false_iff]
    constructor
    · intro hk
      rcases List.mem_map.mp hk with ⟨kv, hkv, hfst⟩
      rcases List.mem_map.mp hkv with ⟨f, hf, hpair⟩
      rcases List.mem_filter.mp (mem_jsSortBy.mp hf) with ⟨hfl, hmf⟩
      refine ⟨f, hfl, hmf, ?_⟩
      rw [← hpair] at hfst
      exact hfst
    · rintro ⟨f, hfl, hmf, hbase⟩
      refine List.mem_map.mpr ⟨(mockBaseName f, mockBaseName f ++ "Mock"), ?_, hbase⟩
      exact List.mem_map.mpr ⟨f, mem_jsSortBy.mpr (List.mem_filter.mpr ⟨hfl, hmf⟩), rfl⟩
  · intro hz
    unfold updateMockRegistry
    rw [hz]
    rfl

/-- C10 witness: instantiation on a one-artifact listing and on the empty
listing. -/
theorem registry_keys_amended_witness :
    ("GetA" ∈ listMocks (updateMockRegistry ["GetA.mock.ts", "notes.txt"] []) ↔
      ∃ f ∈ ["GetA.mock.ts", "notes.txt"], isMockFile f = true ∧
        mockBaseName f = "GetA") ∧
    updateMockRegistry [] [("Stale", "StaleMock")] = [("Stale", "StaleMock")] := by
  constructor
  · exact (registry_keys_amended ["GetA.mock.ts", "notes.txt"] []).1
      (by decide) "GetA"
  · exact (registry_keys_amended [] [("Stale", "StaleMock")]).2 (by decide)

/-! ### Extractor lemmas -/

/-- A successfully extracted candidate carries a truthy, non-introspection
name. -/
theorem entryOp_guard (e : HarEntry) (op : GraphQLOperation)
    (h : entryOp e = some op) :
    jsTruthy op.operationName = true ∧
      op.operationName ≠ .str "IntrospectionQuery" := by
  unfold entryOp at h
  split at h
  · exact Option.noConfusion h
  · split at h
    · exact Option.noConfusion h
    · split at h
      · exact Option.noConfusion h
      · split at h
        · exact Option.noConfusion h
        · split at h
          · exact Option.noConfusion h
          · dsimp only at h
            split at h <;>
            · split at h
              · exact Option.noConfusion h
              · rename_i hguard
                simp at hguard
                obtain ⟨h1, h2⟩ := hguard
                cases h
                exact ⟨h1, h2⟩

theorem extractOpsGo_sublist :
    ∀ (l : List HarEntry) (seen : List Json),
      (extractOpsGo l seen).Sublist (l.filterMap entryOp) := by
  intro l
  induction l with
  | nil => intro seen; exact List.Sublist.refl _
  | cons e rest ih =>
      intro seen
      simp only [extractOpsGo, List.filterMap_cons]
      cases he : entryOp e with
      | none => exact ih seen
      | some op =>
          by_cases hs : op.operationName ∈ seen
          · simp only [hs, if_pos]
            exact (ih seen).cons op
          · simp only [hs, if_neg, not_false_iff]
            exact (ih (op.operationName :: seen)).cons₂ op

theorem extractOpsGo_not_seen :
    ∀ (l : List HarEntry) (seen : List Json) (op : GraphQLOperation),
      op ∈ extractOpsGo l seen → op.operationName ∉ seen := by
  intro l
  induction l with
  | nil => intro seen op h; exact absurd h (List.not_mem_nil op)
  | cons e rest ih =>
      intro seen op h
      cases he : entryOp e with
      | none =>
          simp only [extractOpsGo, he] at h
          exact ih seen op h
      | some c =>
          simp only [extractOpsGo, he] at h
          by_cases hs : c.operationName ∈ seen
          · rw [if_pos hs] at h
            exact ih seen op h
          · rw [if_neg hs] at h
            rcases List.mem_cons.mp h with rfl | hmem
            · exact hs
            · intro hcon
              exact ih _ op hmem (List.mem_cons_of_mem _ hcon)

theorem extractOpsGo_nodup :
    ∀ (l : List HarEntry) (seen : List Json),
      ((extractOpsGo l seen).map GraphQLOperation.operationName).Nodup := by
  intro l
  induction l with
  | nil => intro seen; simp [extractOpsGo]
  | cons e rest ih =>
      intro seen
      cases he : entryOp e with
      | none => simp only [extractOpsGo, he]; exact ih seen
      | some c =>
          simp only [extractOpsGo, he]
          by_cases hs : c.operationName ∈ seen
          · rw [if_pos hs]; exact ih seen
          · rw [if_neg hs]
            simp only [List.map_cons, List.nodup_cons]
            refine ⟨?_, ih _⟩
            intro hmem
            rcases List.mem_map.mp hmem with ⟨op, hop, hname⟩
            exact extractOpsGo_not_seen rest _ op hop
              (hname ▸ List.mem_cons_self _ _)

theorem extractOpsGo_find_first :
    ∀ (l : List HarEntry) (seen : List Json) (op : GraphQLOperation),
      op ∈ extractOpsGo l seen →
      (l.filterMap entryOp).find?
        (fun c => c.operationName == op.operationName) = some op := by
  intro l
  induction l with
  | nil => intro seen op h; exact absurd h (List.not_mem_nil op)
  | cons e rest ih =>
      intro seen op h
      cases he : entryOp e with
      | none =>
          simp only [extractOpsGo, he] at h
          simp only [List.filterMap_cons, he]
          exact ih seen op h
      | some c =>
          simp only [extractOpsGo, he] at h
          simp only [List.filterMap_cons, he]
          by_cases hs : c.operationName ∈ seen
          · rw [if_pos hs] at h
            have hop := extractOpsGo_not_seen rest seen op h
            have hne : (c.operationName == op.operationName) = false := by
              cases hb : c.operationName == op.operationName
              · rfl
              · exact absurd ((beq_iff_eq.mp hb) ▸ hs) hop
            simp only [List.find?_cons, hne, cond_false]
            exact ih seen op h
          · rw [if_neg hs] at h
            rcases List.mem_cons.mp h with rfl | hmem
            · simp only [List.find?_cons, beq_self_eq_true, cond_true]
            · have hop := extractOpsGo_not_seen rest _ op hmem
              have hne : (c.operationName == op.operationName) = false := by
                cases hb : c.operationName == op.operationName
                · rfl
                · exact absurd ((beq_iff_eq.mp hb) ▸ List.mem_cons_self _ _) hop
              simp only [List.find?_cons, hne, cond_false]
              exact ih _ op hmem

theorem extractOpsGo_complete :
    ∀ (l : List HarEntry) (seen : List Json) (c : GraphQLOperation),
      c ∈ l.filterMap entryOp →
      c.operationName ∈ seen ∨
        ∃ op ∈ extractOpsGo l seen, op.operationName = c.operationName := by
  intro l
  induction l with
  | nil => intro seen c h; simp at h
  | cons e rest ih =>
      intro seen c h
      cases he : entryOp e with
      | none =>
          simp only [List.filterMap_cons, he] at h
          simp only [extractOpsGo, he]
          exact ih seen c h
      | some d =>
          simp only [List.filterMap_cons, he] at h
          simp only [extractOpsGo, he]
          by_cases hs : d.operationName ∈ seen
          · rw [if_pos hs]
            rcases List.mem_cons.mp h with heq | hmem
            · exact Or.inl (heq ▸ hs)
            · exact ih seen c hmem
          · rw [if_neg hs]
            rcases List.mem_cons.mp h with heq | hmem
            · exact Or.inr ⟨d, List.mem_cons_self _ _, by rw [heq]⟩
            · rcases ih (d.operationName :: seen) c hmem with hseen | ⟨op, hop, hname⟩
              · rcases List.mem_cons.mp hseen with heq | hseen'
                · exact Or.inr ⟨d, List.mem_cons_self _ _, heq.symm⟩
                · exact Or.inl hseen'
              · exact Or.inr ⟨op, List.mem_cons_of_mem _ hop, hname⟩

theorem extractOpsGo_skip (e : HarEntry) (he : entryOp e = none) :
    ∀ (l₁ l₂ : List HarEntry) (seen : List Json),
      extractOpsGo (l₁ ++ e :: l₂) seen = extractOpsGo (l₁ ++ l₂) seen := by
  intro l₁
  induction l₁ with
  | nil =>
      intro l₂ seen
      simp [extractOpsGo, he]
  | cons a t ih =>
      intro l₂ seen
      cases ha : entryOp a with
      | none =>
          simp only [List.cons_append, extractOpsGo, ha]
          exact ih l₂ seen
      | some c =>
          simp only [List.cons_append, extractOpsGo, ha]
          by_cases hs : c.operationName ∈ seen
          · rw [if_pos hs, if_pos hs]
            exact ih l₂ seen
          · rw [if_neg hs, if_neg hs]
            exact congrArg (fun x => c :: x) (ih l₂ (c.operationName :: seen))

/-! ### C9 -/

/-- An IntrospectionQuery exchange. -/
def harEntryIntro : HarEntry :=
  ⟨"POST", "https://api.example/graphql",
   some (.jsonText "bi" (.obj [("operationName", .str "IntrospectionQuery"),
     ("query", .str "query IntrospectionQuery schema")])),
   some (.jsonText "ri" (.obj [("data", .num 9)]))⟩

/-- A GetThing exchange. -/
def harEntryThing : HarEntry :=
  ⟨"POST", "https://api.example/graphql",
   some (.jsonText "bt" (.obj [("operationName", .str "GetThing"),
     ("query", .str "query GetThing thing")])),
   some (.jsonText "rt" (.obj [("data", .num 7)]))⟩

/-- C9: extractOperations returns an ordered list unique by name in
first-occurrence order, always excludes IntrospectionQuery, and never fails
on a malformed entry: (1) the concrete introspection+GetThing archive yields
exactly GetThing; (2) names are duplicate-free; (3) no returned operation is
the introspection sentinel; (4) the result is a sublist (order-preserving) of
the per-entry candidates; (5) every returned operation is the FIRST candidate
carrying its name; (6) every candidate name is represented; (7) an entry with
an unparsable or name-less body is skipped, yielding the same result as if it
were absent. -/
theorem extractOperations_spec :
    (extractGraphQLOperations (.har [harEntryIntro, harEntryThing]) =
        [⟨.str "GetThing", .str "query GetThing thing"⟩]) ∧
    (∀ input : HarInput,
        ((extractGraphQLOperations input).map
          GraphQLOperation.operationName).Nodup) ∧
    (∀ (input : HarInput) (op : GraphQLOperation),
        op ∈ extractGraphQLOperations input →
        op.operationName ≠ .str "IntrospectionQuery") ∧
    (∀ l : List HarEntry,
        (extractGraphQLOperations (.har l)).Sublist (l.filterMap entryOp)) ∧
    (∀ (l : List HarEntry) (op : GraphQLOperation),
        op ∈ extractGraphQLOperations (.har l) →
        (l.filterMap entryOp).find?
          (fun c => c.operationName == op.operationName) = some op) ∧
    (∀ (l : List HarEntry) (c : GraphQLOperation), c ∈ l.filterMap entryOp →
        ∃ op ∈ extractGraphQLOperations (.har l),
          op.operationName = c.operationName) ∧
    (∀ (l₁ l₂ : List HarEntry) (e : HarEntry), entryOp e = none →
        extractGraphQLOperations (.har (l₁ ++ e :: l₂)) =
          extractGraphQLOperations (.har (l₁ ++ l₂))) := by
  refine ⟨by decide, ?_, ?_, ?_, ?_, ?_, ?_⟩
  · intro input
    cases input with
    | absent => exact List.nodup_nil
    | har l => exact extractOpsGo_nodup l []
  · intro input op hop
    cases input with
    | absent => exact absurd hop (List.not_mem_nil op)
    | har l =>
        have hsub := extractOpsGo_sublist l []
        rcases List.mem_filterMap.mp (hsub.subset hop) with ⟨e, _, he⟩
        exact (entryOp_guard e op he).2
  · intro l
    exact extractOpsGo_sublist l []
  · intro l op hop
    exact extractOpsGo_find_first l [] op hop
  · intro l c hc
    rcases extractOpsGo_complete l [] c hc with hseen | hex
    · exact absurd hseen (List.not_mem_nil _)
    · exact hex
  · intro l₁ l₂ e he
    exact extractOpsGo_skip e he l₁ l₂ []

/-- A HAR entry whose body is raw non-JSON text without a query keyword:
extractGraphQLOperations skips it. -/
def harEntryBad : HarEntry :=
  ⟨"POST", "https://api.example/graphql",
   some (.rawText "this is not json"), none⟩

/-- C9 witness: the membership, first-candidate and skip statements applied
at the concrete archives. -/
theorem extractOperations_spec_witness :
    ((⟨Json.str "GetThing", Json.str "query GetThing thing"⟩ : GraphQLOperation).operationName ≠
        Json.str "IntrospectionQuery") ∧
      (([harEntryIntro, harEntryThing].filterMap entryOp).find?
        (fun c => c.operationName ==
          (⟨Json.str "GetThing", Json.str "query GetThing thing"⟩ :
            GraphQLOperation).operationName) =
        some ⟨Json.str "GetThing", Json.str "query GetThing thing"⟩) ∧
      (extractGraphQLOperations
          (.har ([harEntryThing] ++ harEntryBad :: [harEntryA1])) =
        extractGraphQLOperations (.har ([harEntryThing] ++ [harEntryA1]))) := by
  refine ⟨?_, ?_, ?_⟩
  · exact extractOperations_spec.2.2.1 (.har [harEntryIntro, harEntryThing])
      ⟨Json.str "GetThing", Json.str "query GetThing thing"⟩ (by decide)
  · exact extractOperations_spec.2.2.2.2.1 [harEntryIntro, harEntryThing]
      ⟨Json.str "GetThing", Json.str "query GetThing thing"⟩ (by decide)
  · exact extractOperations_spec.2.2.2.2.2.2 [harEntryThing] [harEntryA1]
      harEntryBad (by decide)

/-! ### C3: key-order independence of the fingerprint -/

/-- Two JSON values that differ only in the insertion order of object keys
(JS objects have unique keys, so permutations are taken over duplicate-free
key lists): reflexivity, transitivity, congruence one position at a time for
array elements and object field values, and permutation of an object's
fields. -/
inductive KeyOrderEqv : Json → Json → Prop where
  | reflEqv : ∀ v, KeyOrderEqv v v
  | transEqv : ∀ {a b c}, KeyOrderEqv a b → KeyOrderEqv b c → KeyOrderEqv a c
  | arrHead : ∀ {x y : Json} (xs : List Json), KeyOrderEqv x y →
      KeyOrderEqv (.arr (x :: xs)) (.arr (y :: xs))
  | arrTail : ∀ (x : Json) {xs ys : List Json},
      KeyOrderEqv (.arr xs) (.arr ys) →
      KeyOrderEqv (.arr (x :: xs)) (.arr (x :: ys))
  | objValue : ∀ (k : String) {v w : Json} (fs : List (String × Json)),
      KeyOrderEqv v w →
      KeyOrderEqv (.obj ((k, v) :: fs)) (.obj ((k, w) :: fs))
  | objTail : ∀ (f : String × Json) {fs gs : List (String × Json)},
      KeyOrderEqv (.obj fs) (.obj gs) →
      KeyOrderEqv (.obj (f :: fs)) (.obj (f :: gs))
  | objPerm : ∀ {fs gs}, fs.Perm gs → (fs.map Prod.fst).Nodup →
      KeyOrderEqv (.obj fs) (.obj gs)

/-- structFields is the map of getStructure over the values. -/
theorem structFields_eq_map (l : List (String × Json)) :
    structFields l = l.map (fun kv => (kv.1, getStructure kv.2)) := by
  induction l with
  | nil => rfl
  | cons kv rest ih => cases kv; simp [structFields, ih]

theorem insertSorted_pairwise {α : Type} (le : α → α → Bool)
    (htrans : ∀ a b c, le a b = true → le b c = true → le a c = true)
    (htotal : ∀ a b, le a b = true ∨ le b a = true) (a : α) :
    ∀ l : List α, l.Pairwise (fun x y => le x y = true) →
      (insertSorted le a l).Pairwise (fun x y => le x y = true) := by
  intro l
  induction l with
  | nil => intro _; simp [insertSorted]
  | cons b t ih =>
      intro hl
      rcases List.pairwise_cons.mp hl with ⟨hbt, ht⟩
      by_cases hab : le a b = true
      · simp only [insertSorted, hab, if_pos]
        refine List.pairwise_cons.mpr ⟨?_, hl⟩
        intro x hx
        rcases List.mem_cons.mp hx with rfl | hxt
        · exact hab
        · exact htrans a b x hab (hbt x hxt)
      · simp only [insertSorted, hab, if_neg, not_false_iff]
        refine List.pairwise_cons.mpr ⟨?_, ih ht⟩
        intro x hx
        rcases List.mem_cons.mp ((insertSorted_perm le a t).mem_iff.mp hx) with
          heq | hxt
        · rcases htotal a b with h | h
          · exact absurd h hab
          · exact heq ▸ h
        · exact hbt x hxt

theorem jsSortBy_pairwise {α : Type} (le : α → α → Bool)
    (htrans : ∀ a b c, le a b = true → le b c = true → le a c = true)
    (htotal : ∀ a b, le a b = true ∨ le b a = true) :
    ∀ l : List α, (jsSortBy le l).Pairwise (fun x y => le x y = true) := by
  intro l
  induction l with
  | nil => simp [jsSortBy]
  | cons a t ih => exact insertSorted_pairwise le htrans htotal a _ ih

theorem charListLE_total : ∀ as bs : List Char,
    charListLE as bs = true ∨ charListLE bs as = true := by
  intro as
  induction as with
  | nil => intro bs; exact Or.inl rfl
  | cons a at' ih =>
      intro bs
      cases bs with
      | nil => exact Or.inr rfl
      | cons b bt =>
          rcases lt_trichotomy a b with h | h | h
          · left; simp [charListLE, h]
          · subst h
            rcases ih bt with h1 | h1
            · left; simp [charListLE, lt_irrefl, h1]
            · right; simp [charListLE, lt_irrefl, h1]
          · right; simp [charListLE, h]

theorem charListLE_trans : ∀ as bs cs : List Char,
    charListLE as bs = true → charListLE bs cs = true →
    charListLE as cs = true := by
  intro as
  induction as with
  | nil => intro bs cs h1 h2; rfl
  | cons a at' ih =>
      intro bs cs h1 h2
      cases bs with
      | nil => simp [charListLE] at h1
      | cons b bt =>
          cases cs with
          | nil => simp [charListLE] at h2
          | cons c ct =>
              rcases lt_trichotomy a b with hab | hab | hab
              · rcases lt_trichotomy b c with hbc | hbc | hbc
                · simp [charListLE, lt_trans hab hbc]
                · subst hbc; simp [charListLE, hab]
                · simp [charListLE, asymm hbc, hbc] at h2
              · subst hab
                have h1' : charListLE at' bt = true := by
                  simpa [charListLE, lt_irrefl] using h1
                rcases lt_trichotomy a c with hac | hac | hac
                · simp [charListLE, hac]
                · subst hac
                  have h2' : charListLE bt ct = true := by
                    simpa [charListLE, lt_irrefl] using h2
                  simpa [charListLE, lt_irrefl] using ih bt ct h1' h2'
                · simp [charListLE, asymm hac, hac] at h2
              · simp [charListLE, asymm hab, hab] at h1

theorem charListLE_antisymm : ∀ as bs : List Char,
    charListLE as bs = true → charListLE bs as = true → as = bs := by
  intro as
  induction as with
  | nil =>
      intro bs h1 h2
      cases bs with
      | nil => rfl
      | cons b bt => simp [charListLE] at h2
  | cons a at' ih =>
      intro bs h1 h2
      cases bs with
      | nil => simp [charListLE] at h1
      | cons b bt =>
          rcases lt_trichotomy a b with hab | hab | hab
          · simp [charListLE, asymm hab, hab] at h2
          · subst hab
            have h1' : charListLE at' bt = true := by
              simpa [charListLE, lt_irrefl] using h1
            have h2' : charListLE bt at' = true := by
              simpa [charListLE, lt_irrefl] using h2
            rw [ih bt h1' h2']
          · simp [charListLE, asymm hab, hab] at h1

/-- strLE is antisymmetric. -/
theorem strLE_antisymm (a b : String) (h1 : strLE a b = true)
    (h2 : strLE b a = true) : a = b := by
  have hs : a.toList = b.toList := charListLE_antisymm _ _ h1 h2
  cases a
  cases b
  exact congrArg String.mk (by simpa [String.toList] using hs)

instance : IsAntisymm (String × Json)
    (fun x y => keyLE x y = true ∧ x.1 ≠ y.1) :=
  ⟨fun x y h1 h2 => absurd (strLE_antisymm x.1 y.1 h1.1 h2.1) h1.2⟩

/-- Two permuted lists of fields with duplicate-free keys that are both
key-sorted are equal. -/
theorem sorted_fields_unique (l₁ l₂ : List (String × Json))
    (hperm : l₁.Perm l₂)
    (h₁ : l₁.Pairwise (fun x y => keyLE x y = true))
    (h₂ : l₂.Pairwise (fun x y => keyLE x y = true))
    (hnd : (l₁.map Prod.fst).Nodup) : l₁ = l₂ := by
  have hnd₂ : (l₂.map Prod.fst).Nodup := ((hperm.map Prod.fst).nodup_iff).mp hnd
  have hne₁ : l₁.Pairwise (fun a b : String × Json => a.1 ≠ b.1) :=
    (List.pairwise_map.mp hnd)
  have hne₂ : l₂.Pairwise (fun a b : String × Json => a.1 ≠ b.1) :=
    (List.pairwise_map.mp hnd₂)
  exact List.eq_of_perm_of_sorted hperm (h₁.and hne₁) (h₂.and hne₂)

/-- keyLE is transitive. -/
theorem keyLE_trans (a b c : String × Json)
    (h1 : keyLE a b = true) (h2 : keyLE b c = true) : keyLE a c = true :=
  charListLE_trans _ _ _ h1 h2

/-- keyLE is total. -/
theorem keyLE_total (a b : String × Json) :
    keyLE a b = true ∨ keyLE b a = true :=
  charListLE_total _ _

/-- The sorted structure fields of permuted duplicate-free-key objects are
equal. -/
theorem getStructure_obj_perm (fs gs : List (String × Json))
    (hperm : fs.Perm gs) (hnd : (fs.map Prod.fst).Nodup) :
    getStructure (.obj fs) = getStructure (.obj gs) := by
  simp only [getStructure]
  congr 1
  have hmapped : (structFields fs).Perm (structFields gs) := by
    rw [structFields_eq_map, structFields_eq_map]
    exact hperm.map _
  have hkeys : (structFields fs).map Prod.fst = fs.map Prod.fst := by
    rw [structFields_eq_map, List.map_map]
    rfl
  have hndf : ((jsSortBy keyLE (structFields fs)).map Prod.fst).Nodup := by
    refine (((jsSortBy_perm keyLE (structFields fs)).map Prod.fst).nodup_iff).mpr ?_
    rw [hkeys]
    exact hnd
  have hp : (jsSortBy keyLE (structFields fs)).Perm
      (jsSortBy keyLE (structFields gs)) :=
    ((jsSortBy_perm keyLE (structFields fs)).trans hmapped).trans
      (jsSortBy_perm keyLE (structFields gs)).symm
  exact sorted_fields_unique _ _ hp
    (jsSortBy_pairwise keyLE keyLE_trans keyLE_total _)
    (jsSortBy_pairwise keyLE keyLE_trans keyLE_total _)
    hndf

/-- getStructure is invariant under key-order equivalence. -/
theorem getStructure_keyOrderEqv {v w : Json} (h : KeyOrderEqv v w) :
    getStructure v = getStructure w := by
  induction h with
  | reflEqv v => rfl
  | transEqv h1 h2 ih1 ih2 => exact ih1.trans ih2
  | arrHead xs h ih => simp [getStructure, structHead, ih]
  | arrTail x h ih => rfl
  | objValue k fs h ih => simp [getStructure, structFields, jsSortBy, ih]
  | objTail f h ih =>
      rename_i fs gs
      obtain ⟨k, v⟩ := f
      have hobj : jsSortBy keyLE (structFields fs) =
          jsSortBy keyLE (structFields gs) := by
        simpa [getStructure] using ih
      simp [getStructure, structFields, jsSortBy, hobj]
  | objPerm hperm hnd => exact getStructure_obj_perm _ _ hperm hnd

/-- C3: the structural fingerprint is deterministic and value-independent:
repeated calls agree, the fingerprint is invariant under object key insertion
order (the recursive key-order equivalence), two objects with the same key
topology but different scalar leaves hash identically, and adding a field
changes the fingerprint (evaluated through the exact MD5 digest). -/
theorem fingerprint_deterministic_value_independent :
    (∀ v : Json, generateSchemaHash v = generateSchemaHash v) ∧
    (∀ v w : Json, KeyOrderEqv v w →
        generateSchemaHash v = generateSchemaHash w) ∧
    (generateSchemaHash (.obj [("a", .num 1), ("b", .str "x")]) =
        generateSchemaHash (.obj [("a", .num 2), ("b", .str "y")])) ∧
    (generateSchemaHash (.obj [("a", .num 1)]) ≠
        generateSchemaHash (.obj [("a", .num 1), ("b", .num 1)])) := by
  refine ⟨fun v => rfl, ?_, ?_, ?_⟩
  · intro v w h
    unfold generateSchemaHash
    rw [getStructure_keyOrderEqv h]
  · decide
  · decide

/-- C3 witness: key-order invariance applied to a concrete reordering. -/
theorem fingerprint_key_order_witness :
    generateSchemaHash (.obj [("a", .num 1), ("b", .str "x")]) =
      generateSchemaHash (.obj [("b", .str "x"), ("a", .num 1)]) := by
  refine fingerprint_deterministic_value_independent.2.1 _ _ ?_
  exact KeyOrderEqv.objPerm (List.Perm.swap _ _ _) (by decide)

/-! ### C8: characterization of extractFieldPaths -/

mutual

/-- The key chains present in a JSON value: an object contributes each key
alone plus the key prepended to its value's chains; an array contributes the
union of ALL of its elements' chains (positions contribute nothing); scalars
contribute none. -/
def pathsOf : Json → List (List String)
  | .obj fields => pathsOfFields fields
  | .arr xs => pathsOfList xs
  | .null => []
  | .undefined => []
  | .bool _ => []
  | .num _ => []
  | .str _ => []

/-- The chains of all elements of an array. -/
def pathsOfList : List Json → List (List String)
  | [] => []
  | x :: xs => pathsOf x ++ pathsOfList xs

/-- The chains of an object's fields. -/
def pathsOfFields : List (String × Json) → List (List String)
  | [] => []
  | (k, v) :: fs =>
      ([k] :: (pathsOf v).map (fun p => k :: p)) ++ pathsOfFields fs

end

mutual

/-- No object key anywhere in the value is the empty string (the code folds
an empty key into its parent path because the empty prefix test cannot tell
it apart from the top level). -/
def noEmptyKeys : Json → Bool
  | .obj fields => noEmptyKeysFields fields
  | .arr xs => noEmptyKeysList xs
  | .null => true
  | .undefined => true
  | .bool _ => true
  | .num _ => true
  | .str _ => true

/-- noEmptyKeys over array elements. -/
def noEmptyKeysList : List Json → Bool
  | [] => true
  | x :: xs => noEmptyKeys x && noEmptyKeysList xs

/-- noEmptyKeys over object fields. -/
def noEmptyKeysFields : List (String × Json) → Bool
  | [] => true
  | (k, v) :: fs => (k != "") && noEmptyKeys v && noEmptyKeysFields fs

end

/-- Dot-join of a key chain. -/
def joinDots : List String → String
  | [] => ""
  | [k] => k
  | k :: l => k ++ "." ++ joinDots l

/-- Dot-join of a key chain under a prefix (the empty prefix is dropped,
matching the code's truthiness test on the prefix). -/
def joinUnder (pre : String) (p : List String) : String :=
  if pre == "" then joinDots p else pre ++ "." ++ joinDots p

theorem mem_strSetAdd {acc : List String} {s x : String} :
    x ∈ strSetAdd acc s ↔ x ∈ acc ∨ x = s := by
  unfold strSetAdd
  by_cases h : s ∈ acc
  · simp only [h, if_pos]
    constructor
    · exact Or.inl
    · rintro (hx | rfl)
      · exact hx
      · exact h
  · simp [h]

theorem mem_strSetUnion {l : List String} :
    ∀ {acc : List String} {x : String},
      x ∈ strSetUnion acc l ↔ x ∈ acc ∨ x ∈ l := by
  induction l with
  | nil => intro acc x; simp [strSetUnion]
  | cons s t ih =>
      intro acc x
      simp only [strSetUnion, List.foldl_cons] at ih ⊢
      rw [ih, mem_strSetAdd]
      simp only [List.mem_cons]
      tauto

theorem mem_efpArr {xs : List Json} {pre : String} :
    ∀ {acc : List String} {s : String},
      s ∈ efpArr xs pre acc ↔
        s ∈ acc ∨ ∃ x ∈ xs, s ∈ extractFieldPaths x pre := by
  induction xs with
  | nil => intro acc s; simp [efpArr]
  | cons x t ih =>
      intro acc s
      simp only [efpArr]
      rw [ih, mem_strSetUnion]
      constructor
      · rintro ((h | h) | ⟨y, hy, hmem⟩)
        · exact Or.inl h
        · exact Or.inr ⟨x, List.mem_cons_self _ _, h⟩
        · exact Or.inr ⟨y, List.mem_cons_of_mem _ hy, hmem⟩
      · rintro (h | ⟨y, hy, hmem⟩)
        · exact Or.inl (Or.inl h)
        · rcases List.mem_cons.mp hy with rfl | hyt
          · exact Or.inl (Or.inr hmem)
          · exact Or.inr ⟨y, hyt, hmem⟩

theorem mem_efpObj {fs : List (String × Json)} {pre : String} :
    ∀ {acc : List String} {s : String},
      s ∈ efpObj fs pre acc ↔
        s ∈ acc ∨ ∃ kv ∈ fs,
          s = (if pre == "" then kv.1 else pre ++ "." ++ kv.1) ∨
          s ∈ extractFieldPaths kv.2
            (if pre == "" then kv.1 else pre ++ "." ++ kv.1) := by
  induction fs with
  | nil => intro acc s; simp [efpObj]
  | cons kv t ih =>
      obtain ⟨k, v⟩ := kv
      intro acc s
      simp only [efpObj]
      rw [ih, mem_strSetUnion, mem_strSetAdd]
      constructor
      · rintro ((h | h) | ⟨y, hy, hmem⟩)
        · rcases h with h | h
          · exact Or.inl h
          · exact Or.inr ⟨(k, v), List.mem_cons_self _ _, Or.inl h⟩
        · exact Or.inr ⟨(k, v), List.mem_cons_self _ _, Or.inr h⟩
        · exact Or.inr ⟨y, List.mem_cons_of_mem _ hy, hmem⟩
      · rintro (h | ⟨y, hy, hmem⟩)
        · exact Or.inl (Or.inl (Or.inl h))
        · rcases List.mem_cons.mp hy with rfl | hyt
          · rcases hmem with h | h
            · exact Or.inl (Or.inl (Or.inr h))
            · exact Or.inl (Or.inr h)
          · exact Or.inr ⟨y, hyt, hmem⟩

theorem sizeOf_lt_of_mem_arr {x : Json} {xs : List Json} (h : x ∈ xs) :
    sizeOf x < sizeOf (Json.arr xs) := by
  have h1 := List.sizeOf_lt_of_mem h
  have h2 : sizeOf (Json.arr xs) = 1 + sizeOf xs := by simp
  omega

theorem sizeOf_lt_of_mem_obj {k : String} {v : Json}
    {fs : List (String × Json)} (h : (k, v) ∈ fs) :
    sizeOf v < sizeOf (Json.obj fs) := by
  have h1 := List.sizeOf_lt_of_mem h
  have h2 : sizeOf (k, v) = 1 + sizeOf k + sizeOf v := by simp
  have h3 : sizeOf (Json.obj fs) = 1 + sizeOf fs := by simp
  omega

theorem noEmptyKeysList_mem : ∀ (xs : List Json),
    noEmptyKeysList xs = true → ∀ x ∈ xs, noEmptyKeys x = true := by
  intro xs
  induction xs with
  | nil => intro _ x hx; cases hx
  | cons y t ih =>
      intro h x hx
      rcases Bool.and_eq_true_iff.mp h with ⟨h1, h2⟩
      rcases List.mem_cons.mp hx with rfl | hxt
      · exact h1
      · exact ih h2 x hxt

theorem noEmptyKeysFields_mem : ∀ (fs : List (String × Json)),
    noEmptyKeysFields fs = true →
    ∀ kv ∈ fs, kv.1 ≠ "" ∧ noEmptyKeys kv.2 = true := by
  intro fs
  induction fs with
  | nil => intro _ kv hkv; cases hkv
  | cons f t ih =>
      obtain ⟨k, v⟩ := f
      intro h kv hkv
      rcases Bool.and_eq_true_iff.mp h with ⟨h12, h3⟩
      rcases Bool.and_eq_true_iff.mp h12 with ⟨h1, h2⟩
      rcases List.mem_cons.mp hkv with rfl | hkvt
      · exact ⟨by simpa using h1, h2⟩
      · exact ih h3 kv hkvt

theorem mem_pathsOfList : ∀ (xs : List Json) (p : List String),
    p ∈ pathsOfList xs ↔ ∃ x ∈ xs, p ∈ pathsOf x := by
  intro xs
  induction xs with
  | nil => intro p; simp [pathsOfList]
  | cons x t ih =>
      intro p
      simp only [pathsOfList, List.mem_append, ih, List.mem_cons]
      constructor
      · rintro (h | ⟨y, hy, hp⟩)
        · exact ⟨x, Or.inl rfl, h⟩
        · exact ⟨y, Or.inr hy, hp⟩
      · rintro ⟨y, hy | hy, hp⟩
        · exact Or.inl (hy ▸ hp)
        · exact Or.inr ⟨y, hy, hp⟩

theorem mem_pathsOfFields : ∀ (fs : List (String × Json)) (p : List String),
    p ∈ pathsOfFields fs ↔
      ∃ kv ∈ fs, p = [kv.1] ∨ ∃ q ∈ pathsOf kv.2, p = kv.1 :: q := by
  intro fs
  induction fs with
  | nil => intro p; simp [pathsOfFields]
  | cons f t ih =>
      obtain ⟨k, v⟩ := f
      intro p
      simp only [pathsOfFields, List.mem_append, List.mem_cons, List.mem_map,
        ih]
      constructor
      · rintro ((rfl | ⟨q, hq, rfl⟩) | ⟨kv, hkv, hcase⟩)
        · exact ⟨(k, v), Or.inl rfl, Or.inl rfl⟩
        · exact ⟨(k, v), Or.inl rfl, Or.inr ⟨q, hq, rfl⟩⟩
        · exact ⟨kv, Or.inr hkv, hcase⟩
      · rintro ⟨kv, hkv | hkv, hcase⟩
        · subst hkv
          rcases hcase with rfl | ⟨q, hq, rfl⟩
          · exact Or.inl (Or.inl rfl)
          · exact Or.inl (Or.inr ⟨q, hq, rfl⟩)
        · exact Or.inr ⟨kv, hkv, hcase⟩

theorem pathsOf_ne_nil : ∀ (n : Nat) (v : Json), sizeOf v ≤ n →
    ∀ p ∈ pathsOf v, p ≠ [] := by
  intro n
  induction n with
  | zero => intro v h; cases v <;> simp at h
  | succ n ih =>
      intro v hsize p hp
      cases v with
      | arr xs =>
          rcases (mem_pathsOfList xs p).mp (by simpa [pathsOf] using hp) with
            ⟨x, hx, hpx⟩
          have hsx : sizeOf x ≤ n := by
            have := sizeOf_lt_of_mem_arr hx
            omega
          exact ih x hsx p hpx
      | obj fs =>
          rcases (mem_pathsOfFields fs p).mp (by simpa [pathsOf] using hp) with
            ⟨kv, _, hcase⟩
          rcases hcase with rfl | ⟨q, _, rfl⟩ <;> simp
      | null => simp [pathsOf] at hp
      | undefined => simp [pathsOf] at hp
      | bool b => simp [pathsOf] at hp
      | num m => simp [pathsOf] at hp
      | str t => simp [pathsOf] at hp

theorem joinUnder_single (pre k : String) :
    joinUnder pre [k] = if pre == "" then k else pre ++ "." ++ k := by
  simp [joinUnder, joinDots]

theorem joinUnder_cons (pre k : String) (q : List String)
    (hk : k ≠ "") (hq : q ≠ []) :
    joinUnder (joinUnder pre [k]) q = joinUnder pre (k :: q) := by
  cases q with
  | nil => exact absurd rfl hq
  | cons q0 qt =>
      have hjoin : joinDots (k :: q0 :: qt) = k ++ "." ++ joinDots (q0 :: qt) := by
        simp [joinDots]
      by_cases hpre : pre = ""
      · subst hpre
        simp [joinUnder, joinDots, hk, hjoin]
      · have hpb : (pre == "") = false := by simp [hpre]
        have hne : ((pre ++ "." ++ k) == "") = false := by
          simp only [beq_eq_false_iff_ne, ne_eq]
          intro hcon
          have hlen := congrArg String.length hcon
          rw [String.length_append, String.length_append] at hlen
          have hdot : String.length "." = 1 := rfl
          have hnil : String.length "" = 0 := rfl
          omega
        simp only [joinUnder, joinDots, hpb, hjoin, hne, Bool.false_eq_true,
          if_neg, not_false_iff]
        simp [String.append_assoc]

theorem extractFieldPaths_mem_aux : ∀ (n : Nat) (v : Json), sizeOf v ≤ n →
    noEmptyKeys v = true → ∀ (pre s : String),
      (s ∈ extractFieldPaths v pre ↔ ∃ p ∈ pathsOf v, s = joinUnder pre p) := by
  intro n
  induction n with
  | zero => intro v h; cases v <;> simp at h
  | succ n ih =>
      intro v hsize hkeys pre s
      cases v with
      | null => simp [extractFieldPaths, pathsOf]
      | undefined => simp [extractFieldPaths, pathsOf]
      | bool b => simp [extractFieldPaths, pathsOf]
      | num m => simp [extractFieldPaths, pathsOf]
      | str t => simp [extractFieldPaths, pathsOf]
      | arr xs =>
          simp only [extractFieldPaths, pathsOf]
          rw [mem_efpArr]
          simp only [List.not_mem_nil, false_or]
          constructor
          · rintro ⟨x, hx, hmem⟩
            have hsx : sizeOf x ≤ n := by
              have := sizeOf_lt_of_mem_arr hx
              omega
            have hkx : noEmptyKeys x = true :=
              noEmptyKeysList_mem xs (by simpa [noEmptyKeys] using hkeys) x hx
            rcases (ih x hsx hkx pre s).mp hmem with ⟨p, hp, hs⟩
            exact ⟨p, (mem_pathsOfList xs p).mpr ⟨x, hx, hp⟩, hs⟩
          · rintro ⟨p, hp, hs⟩
            rcases (mem_pathsOfList xs p).mp hp with ⟨x, hx, hpx⟩
            have hsx : sizeOf x ≤ n := by
              have := sizeOf_lt_of_mem_arr hx
              omega
            have hkx : noEmptyKeys x = true :=
              noEmptyKeysList_mem xs (by simpa [noEmptyKeys] using hkeys) x hx
            exact ⟨x, hx, (ih x hsx hkx pre s).mpr ⟨p, hpx, hs⟩⟩
      | obj fs =>
          simp only [extractFieldPaths, pathsOf]
          rw [mem_efpObj]
          simp only [List.not_mem_nil, false_or]
          constructor
          · rintro ⟨kv, hkv, hcase⟩
            obtain ⟨k, v⟩ := kv
            have hkmem := noEmptyKeysFields_mem fs
              (by simpa [noEmptyKeys] using hkeys) (k, v) hkv
            rcases hcase with hs | hmem
            · refine ⟨[k],
                (mem_pathsOfFields fs [k]).mpr ⟨(k, v), hkv, Or.inl rfl⟩, ?_⟩
              rw [hs, joinUnder_single]
            · have hsv : sizeOf v ≤ n := by
                have := sizeOf_lt_of_mem_obj hkv
                omega
              rcases (ih v hsv hkmem.2 _ s).mp hmem with ⟨q, hq, hsq⟩
              have hqne : q ≠ [] := pathsOf_ne_nil (sizeOf v) v le_rfl q hq
              refine ⟨k :: q, (mem_pathsOfFields fs (k :: q)).mpr
                ⟨(k, v), hkv, Or.inr ⟨q, hq, rfl⟩⟩, ?_⟩
              rw [hsq, ← joinUnder_cons pre k q hkmem.1 hqne, joinUnder_single]
          · rintro ⟨p, hp, hs⟩
            rcases (mem_pathsOfFields fs p).mp hp with ⟨kv, hkv, hcase⟩
            obtain ⟨k, v⟩ := kv
            have hkmem := noEmptyKeysFields_mem fs
              (by simpa [noEmptyKeys] using hkeys) (k, v) hkv
            have hsv : sizeOf v ≤ n := by
              have := sizeOf_lt_of_mem_obj hkv
              omega
            rcases hcase with rfl | ⟨q, hq, rfl⟩
            · refine ⟨(k, v), hkv, Or.inl ?_⟩
              rw [hs, joinUnder_single]
            · refine ⟨(k, v), hkv, Or.inr ?_⟩
              have hqne : q ≠ [] := pathsOf_ne_nil (sizeOf v) v le_rfl q hq
              refine (ih v hsv hkmem.2 _ s).mpr ⟨q, hq, ?_⟩
              rw [hs, ← joinUnder_cons pre k q hkmem.1 hqne, joinUnder_single]

/-- C8 counterexample: extractFieldPaths analyses ALL array elements, not
only the first (the key b of the second element appears in the output), and
array positions contribute no marker segment at all (the element key a is
joined directly onto the array's own path xs). -/
theorem extractFieldPaths_counterexample :
    extractFieldPaths (.arr [.obj [("a", .num 1)], .obj [("b", .num 2)]]) ""
        = ["a", "b"] ∧
      extractFieldPaths (.arr [.obj [("a", .num 1)]]) "" = ["a"] ∧
      extractFieldPaths (.obj [("xs", .arr [.obj [("a", .num 1)]])]) "" =
        ["xs", "xs.a"] := by
  decide

/-- C8 amended: for every JSON value without empty keys, the field-path set
of the drift comparison is exactly the set of dot-joined chains of object
keys, where the recursion descends into ALL array elements (unioning their
paths, unlike the fingerprinter's first-element sampling in 4.2) and array
positions contribute nothing to a path (no marker segment). -/
theorem extractFieldPaths_amended (v : Json) (hkeys : noEmptyKeys v = true)
    (s : String) :
    s ∈ extractFieldPaths v "" ↔ ∃ p ∈ pathsOf v, s = joinDots p := by
  have h := extractFieldPaths_mem_aux (sizeOf v) v le_rfl hkeys "" s
  simpa [joinUnder] using h

/-- C8 witness: the characterization applied to the concrete nested value. -/
theorem extractFieldPaths_amended_witness :
    ("xs.b" ∈ extractFieldPaths
        (.obj [("xs", .arr [.obj [("a", .num 1)], .obj [("b", .num 2)]])]) "" ↔
      ∃ p ∈ pathsOf
        (.obj [("xs", .arr [.obj [("a", .num 1)], .obj [("b", .num 2)]])]),
        "xs.b" = joinDots p) :=
  extractFieldPaths_amended
    (.obj [("xs", .arr [.obj [("a", .num 1)], .obj [("b", .num 2)]])])
    (by decide) "xs.b"

/-! ### C6: merge cardinality -/

/-- A derived merge name always satisfies the newOpMap guard. -/
theorem mergeOpName_guard {e : HarEntry} {j : Json}
    (h : mergeOpName e = some j) :
    jsTruthy j = true ∧ j ≠ Json.str "IntrospectionQuery" := by
  cases hr : rawMergeOpName e with
  | none =>
      simp only [mergeOpName, hr] at h
      exact Option.noConfusion h
  | some o =>
      simp only [mergeOpName, hr] at h
      by_cases hg : (jsTruthy o && o != Json.str "IntrospectionQuery") = true
      · rw [if_pos hg] at h
        cases h
        rcases Bool.and_eq_true_iff.mp hg with ⟨h1, h2⟩
        refine ⟨h1, ?_⟩
        intro hc
        rw [hc] at h2
        simp at h2
      · rw [if_neg hg] at h
        exact Option.noConfusion h

/-- For a name satisfying the guard, the guarded and raw merge names agree. -/
theorem mergeOpName_eq_raw {e : HarEntry} {j : Json}
    (hjt : jsTruthy j = true) (hji : j ≠ Json.str "IntrospectionQuery") :
    mergeOpName e = some j ↔ rawMergeOpName e = some j := by
  cases hr : rawMergeOpName e with
  | none => simp [mergeOpName, hr]
  | some o =>
      simp only [mergeOpName, hr]
      by_cases hg : (jsTruthy o && o != Json.str "IntrospectionQuery") = true
      · simp [hg]
      · simp only [hg, Bool.false_eq_true, if_neg, not_false_iff]
        constructor
        · intro h; exact Option.noConfusion h
        · intro h
          cases h
          exfalso
          apply hg
          simp [hjt]
          intro hc
          exact hji hc

/-- Members of a Map.set are prior members or the new pair. -/
theorem mem_jsMapSet {α : Type} {m : List (Json × α)} {k : Json} {v : α}
    {kv : Json × α} (h : kv ∈ jsMapSet m k v) : kv ∈ m ∨ kv = (k, v) := by
  induction m with
  | nil => simpa [jsMapSet] using h
  | cons f rest ih =>
      by_cases hf : f.1 = k
      · simp only [jsMapSet, hf, beq_self_eq_true, if_pos] at h
        rcases List.mem_cons.mp h with heq | hm
        · exact Or.inr heq
        · exact Or.inl (List.mem_cons_of_mem _ hm)
      · have hfb : (f.1 == k) = false := by simp [hf]
        simp only [jsMapSet, hfb, Bool.false_eq_true, if_neg,
          not_false_iff] at h
        rcases List.mem_cons.mp h with rfl | hm
        · exact Or.inl (List.mem_cons_self _ _)
        · rcases ih hm with hm2 | hm2
          · exact Or.inl (List.mem_cons_of_mem _ hm2)
          · exact Or.inr hm2

/-- The keys after a Map.set: unchanged when present, appended otherwise. -/
theorem keys_jsMapSet {α : Type} (m : List (Json × α)) (k : Json) (v : α) :
    (jsMapSet m k v).map Prod.fst =
      if jsMapHas m k then m.map Prod.fst else m.map Prod.fst ++ [k] := by
  induction m with
  | nil => simp [jsMapSet, jsMapHas, jsMapLookup]
  | cons f rest ih =>
      by_cases hf : f.1 = k
      · simp [jsMapSet, jsMapHas, jsMapLookup, hf]
      · have hfb : (f.1 == k) = false := by simp [hf]
        have hcons : jsMapHas (f :: rest) k = jsMapHas rest k := by
          simp [jsMapHas, jsMapLookup, hfb]
        rw [hcons]
        simp only [jsMapSet, hfb, Bool.false_eq_true, if_neg, not_false_iff,
          List.map_cons]
        rw [ih]
        by_cases hhas : jsMapHas rest k = true
        · simp [hhas]
        · simp [hhas]

/-- has is membership of the key list. -/
theorem jsMapHas_iff_mem {α : Type} (m : List (Json × α)) (k : Json) :
    jsMapHas m k = true ↔ k ∈ m.map Prod.fst := by
  induction m with
  | nil => simp [jsMapHas, jsMapLookup]
  | cons f rest ih =>
      by_cases hf : f.1 = k
      · simp [jsMapHas, jsMapLookup, hf]
      · have hfb : (f.1 == k) = false := by simp [hf]
        simp only [jsMapHas, jsMapLookup, hfb, Bool.false_eq_true, if_neg,
          not_false_iff, List.map_cons, List.mem_cons]
        rw [← jsMapHas]
        rw [ih]
        constructor
        · exact Or.inr
        · rintro (h | h)
          · exact absurd h.symm hf
          · exact h

/-- A successful lookup is a member. -/
theorem jsMapLookup_mem {α : Type} {m : List (Json × α)} {k : Json} {v : α}
    (h : jsMapLookup m k = some v) : (k, v) ∈ m := by
  induction m with
  | nil => exact Option.noConfusion h
  | cons f rest ih =>
      by_cases hf : f.1 = k
      · simp only [jsMapLookup, hf, beq_self_eq_true, if_pos] at h
        cases h
        rw [← hf]
        exact List.mem_cons_self _ _
      · have hfb : (f.1 == k) = false := by simp [hf]
        simp only [jsMapLookup, hfb, Bool.false_eq_true, if_neg,
          not_false_iff] at h
        exact List.mem_cons_of_mem _ (ih h)

/-- Every pair of the new-archive lookup carries its own key as guarded merge
name. -/
theorem buildNewOpMap_inv (l : List HarEntry) :
    ∀ kv ∈ buildNewOpMap l, mergeOpName kv.2 = some kv.1 := by
  suffices h : ∀ (m : List (Json × HarEntry)),
      (∀ kv ∈ m, mergeOpName kv.2 = some kv.1) →
      ∀ kv ∈ l.foldl newOpMapStep m, mergeOpName kv.2 = some kv.1 by
    exact h [] (by intro kv hkv; cases hkv)
  induction l with
  | nil => intro m hm kv hkv; exact hm kv hkv
  | cons e rest ih =>
      intro m hm kv hkv
      simp only [List.foldl_cons] at hkv
      refine ih (newOpMapStep m e) ?_ kv hkv
      intro kv2 hkv2
      cases hr : rawMergeOpName e with
      | none =>
          simp only [newOpMapStep, hr] at hkv2
          exact hm kv2 hkv2
      | some o =>
          simp only [newOpMapStep, hr] at hkv2
          by_cases hg : (jsTruthy o && o != Json.str "IntrospectionQuery") = true
          · rw [if_pos hg] at hkv2
            rcases mem_jsMapSet hkv2 with hmem | rfl
            · exact hm kv2 hmem
            · show mergeOpName e = some o
              simp only [mergeOpName, hr, if_pos hg]
          · rw [if_neg hg] at hkv2
            exact hm kv2 hkv2

/-- The keys of the new-archive lookup are duplicate-free. -/
theorem buildNewOpMap_keys_nodup (l : List HarEntry) :
    ((buildNewOpMap l).map Prod.fst).Nodup := by
  suffices h : ∀ (m : List (Json × HarEntry)), (m.map Prod.fst).Nodup →
      ((l.foldl newOpMapStep m).map Prod.fst).Nodup by
    exact h [] List.nodup_nil
  induction l with
  | nil => intro m hm; exact hm
  | cons e rest ih =>
      intro m hm
      simp only [List.foldl_cons]
      refine ih (newOpMapStep m e) ?_
      cases hr : rawMergeOpName e with
      | none => simp only [newOpMapStep, hr]; exact hm
      | some o =>
          simp only [newOpMapStep, hr]
          by_cases hg : (jsTruthy o && o != Json.str "IntrospectionQuery") = true
          · rw [if_pos hg, keys_jsMapSet]
            by_cases hhas : jsMapHas m o
            · simp [hhas, hm]
            · simp only [hhas, Bool.false_eq_true, if_neg, not_false_iff]
              refine List.Nodup.append hm (List.nodup_singleton o) ?_
              intro j hj hjo
              rcases List.mem_singleton.mp hjo with rfl
              exact hhas ((jsMapHas_iff_mem m j).mpr hj)
          · rw [if_neg hg]
            exact hm

/-- Membership in a JS-Set add. -/
theorem mem_jsSetAdd (s : List Json) (j k : Json) :
    k ∈ jsSetAdd s j ↔ k = j ∨ k ∈ s := by
  by_cases hj : j ∈ s
  · simp only [jsSetAdd, if_pos hj]
    constructor
    · exact Or.inr
    · rintro (rfl | h)
      · exact hj
      · exact h
  · simp [jsSetAdd, hj]

/-- The walk keeps the exchange count of the existing archive. -/
theorem mergeWalk_length (m : List (Json × HarEntry)) (l : List HarEntry)
    (pr : List Json) : (mergeWalk m l pr).1.length = l.length := by
  induction l generalizing pr with
  | nil => rfl
  | cons e rest ih =>
      cases hr : rawMergeOpName e with
      | none => simp only [mergeWalk, hr]; simp [ih]
      | some o =>
          cases hl : jsMapLookup m o with
          | none => simp only [mergeWalk, hr, hl]; simp [ih]
          | some repl => simp only [mergeWalk, hr, hl]; simp [ih]

/-- Under the lookup invariant, the walk output carries exactly the existing
archive entry names, in order: a replacement carries the same guarded name as
the entry it replaces. -/
theorem mergeWalk_names (m : List (Json × HarEntry))
    (hinv : ∀ kv ∈ m, mergeOpName kv.2 = some kv.1) (l : List HarEntry)
    (pr : List Json) :
    (mergeWalk m l pr).1.filterMap mergeOpName = l.filterMap mergeOpName := by
  induction l generalizing pr with
  | nil => rfl
  | cons e rest ih =>
      cases hr : rawMergeOpName e with
      | none =>
          have hme : mergeOpName e = none := by simp [mergeOpName, hr]
          simp only [mergeWalk, hr]
          simp only [List.filterMap_cons, hme]
          exact ih pr
      | some o =>
          cases hl : jsMapLookup m o with
          | none =>
              simp only [mergeWalk, hr, hl]
              simp only [List.filterMap_cons]
              cases mergeOpName e <;> simp [ih pr]
          | some repl =>
              have hrepl : mergeOpName repl = some o :=
                hinv _ (jsMapLookup_mem hl)
              have hguard := mergeOpName_guard hrepl
              have hme : mergeOpName e = some o :=
                (mergeOpName_eq_raw hguard.1 hguard.2).mpr hr
              simp only [mergeWalk, hr, hl]
              simp only [List.filterMap_cons, hrepl, hme]
              simp [ih (jsSetAdd pr o)]

/-- The processed set after the walk: the starting set plus every name that is
a key of the lookup and names an existing exchange. -/
theorem mem_mergeWalk_processed (m : List (Json × HarEntry))
    (l : List HarEntry) (pr : List Json) (j : Json) :
    j ∈ (mergeWalk m l pr).2 ↔
      j ∈ pr ∨ (jsMapHas m j = true ∧
        ∃ e ∈ l, rawMergeOpName e = some j) := by
  induction l generalizing pr with
  | nil => simp [mergeWalk]
  | cons e rest ih =>
      cases hr : rawMergeOpName e with
      | none =>
          simp only [mergeWalk, hr]
          rw [ih pr]
          simp only [List.exists_mem_cons_iff, hr]
          constructor
          · rintro (h | ⟨hh, hex⟩)
            · exact Or.inl h
            · exact Or.inr ⟨hh, Or.inr hex⟩
          · rintro (h | ⟨hh, (hc | hex)⟩)
            · exact Or.inl h
            · exact Option.noConfusion hc
            · exact Or.inr ⟨hh, hex⟩
      | some o =>
          cases hl : jsMapLookup m o with
          | none =>
              simp only [mergeWalk, hr, hl]
              rw [ih pr]
              simp only [List.exists_mem_cons_iff, hr, Option.some.injEq]
              constructor
              · rintro (h | ⟨hh, hex⟩)
                · exact Or.inl h
                · exact Or.inr ⟨hh, Or.inr hex⟩
              · rintro (h | ⟨hh, (rfl | hex)⟩)
                · exact Or.inl h
                · exact absurd hh (by simp [jsMapHas, hl])
                · exact Or.inr ⟨hh, hex⟩
          | some repl =>
              simp only [mergeWalk, hr, hl]
              rw [ih (jsSetAdd pr o)]
              rw [mem_jsSetAdd]
              simp only [List.exists_mem_cons_iff, hr, Option.some.injEq]
              constructor
              · rintro ((rfl | h) | ⟨hh, hex⟩)
                · exact Or.inr ⟨by simp [jsMapHas, hl], Or.inl rfl⟩
                · exact Or.inl h
                · exact Or.inr ⟨hh, Or.inr hex⟩
              · rintro (h | ⟨hh, (rfl | hex)⟩)
                · exact Or.inl (Or.inr h)
                · exact Or.inl (Or.inl rfl)
                · exact Or.inr ⟨hh, hex⟩

/-- Names contributed by the append phase: the unconsumed keys of the lookup,
in insertion order. -/
theorem mergeAppend_names (m : List (Json × HarEntry)) (pr : List Json) :
    (∀ kv ∈ m, mergeOpName kv.2 = some kv.1) →
    (mergeAppend m pr).filterMap mergeOpName =
      (m.map Prod.fst).filter (fun j => j ∉ pr) := by
  induction m with
  | nil => intro _; rfl
  | cons kv rest ih =>
      intro hinv
      have hkv : mergeOpName kv.2 = some kv.1 :=
        hinv kv (List.mem_cons_self _ _)
      have hrest := ih (fun kv2 h => hinv kv2 (List.mem_cons_of_mem _ h))
      simp only [mergeAppend] at hrest ⊢
      simp only [List.filterMap_map, decide_not] at hrest
      by_cases hp : kv.1 ∈ pr
      · simp [List.filter_cons, hp, hrest]
      · simp [List.filter_cons, hp, hkv, hrest]

/-- The appended exchange count equals the unconsumed key count. -/
theorem mergeAppend_length (m : List (Json × HarEntry)) (pr : List Json) :
    (mergeAppend m pr).length =
      ((m.map Prod.fst).filter (fun j => j ∉ pr)).length := by
  simp only [mergeAppend, List.filter_map, List.length_map]
  rfl

/-- The guarded operation names carried by an entry list, in order. -/
def entryNames (l : List HarEntry) : List Json :=
  l.filterMap mergeOpName

/-- The brand-new operation names a merge appends: keys of the new-archive
lookup that name no existing exchange. -/
def mergeNewNames (existingEntries newEntries : List HarEntry) : List Json :=
  ((buildNewOpMap newEntries).map Prod.fst).filter
    (fun j => j ∉ entryNames existingEntries)

/-! ### C6 -/

/-- C6 counterexample: when the existing archive itself carries the same
operation name (GetA) on two exchanges, the walk substitutes the new exchange
for both of them, so the merged archive holds the replacement twice and an
exchange IS duplicated by operation name, refuting the unconditional
no-duplication clause. -/
theorem merge_duplicate_name_counterexample :
    mergeHarEntries [harEntryA0, harEntryA0] [harEntryA1] =
      [harEntryA1, harEntryA1] ∧
    entryNames (mergeHarEntries [harEntryA0, harEntryA0] [harEntryA1]) =
      [Json.str "GetA", Json.str "GetA"] ∧
    ¬ (entryNames (mergeHarEntries [harEntryA0, harEntryA0]
        [harEntryA1])).Nodup := by
  refine ⟨by decide, by decide, by decide⟩

/-- C6 (amended): merging an existing archive with a new archive yields an
exchange list whose length is the existing length plus the number of
brand-new operation names, whose guarded operation-name sequence is exactly
the existing sequence followed by the brand-new names, and which is
duplicate-free by operation name whenever the existing archive already was:
the E + N count and the no-duplication clause hold per exchange only under
that nodup hypothesis, since updates replace every same-named existing
exchange in place. -/
theorem merge_cardinality_amended (existingEntries newEntries : List HarEntry) :
    (mergeHarEntries existingEntries newEntries).length =
      existingEntries.length +
        (mergeNewNames existingEntries newEntries).length ∧
    entryNames (mergeHarEntries existingEntries newEntries) =
      entryNames existingEntries ++ mergeNewNames existingEntries newEntries ∧
    ((entryNames existingEntries).Nodup →
      (entryNames (mergeHarEntries existingEntries newEntries)).Nodup) := by
  have hinv := buildNewOpMap_inv newEntries
  have hkeys : ∀ j ∈ (buildNewOpMap newEntries).map Prod.fst,
      (j ∈ (mergeWalk (buildNewOpMap newEntries) existingEntries []).2 ↔
        j ∈ entryNames existingEntries) := by
    intro j hj
    have hhas : jsMapHas (buildNewOpMap newEntries) j = true :=
      (jsMapHas_iff_mem _ j).mpr hj
    obtain ⟨v, hv⟩ : ∃ v, (j, v) ∈ buildNewOpMap newEntries := by
      rcases List.mem_map.mp hj with ⟨kv, hkv, hfst⟩
      exact ⟨kv.2, by rw [← hfst]; exact hkv⟩
    have hg := mergeOpName_guard (hinv (j, v) hv)
    rw [mem_mergeWalk_processed]
    simp only [List.not_mem_nil, false_or]
    constructor
    · rintro ⟨_, e, he, hre⟩
      exact List.mem_filterMap.mpr
        ⟨e, he, (mergeOpName_eq_raw hg.1 hg.2).mpr hre⟩
    · intro hmem
      rcases List.mem_filterMap.mp hmem with ⟨e, he, hme⟩
      exact ⟨hhas, e, he, (mergeOpName_eq_raw hg.1 hg.2).mp hme⟩
  have hfilter :
      (((buildNewOpMap newEntries).map Prod.fst).filter (fun j =>
        j ∉ (mergeWalk (buildNewOpMap newEntries) existingEntries []).2)) =
        mergeNewNames existingEntries newEntries := by
    refine List.filter_congr ?_
    intro j hj
    rw [decide_eq_decide]
    exact not_congr (hkeys j hj)
  have hnames : entryNames (mergeHarEntries existingEntries newEntries) =
      entryNames existingEntries ++
        mergeNewNames existingEntries newEntries := by
    show (mergeHarEntries existingEntries newEntries).filterMap mergeOpName = _
    rw [mergeHarEntries]
    rw [List.filterMap_append]
    rw [mergeWalk_names (buildNewOpMap newEntries) hinv existingEntries []]
    rw [mergeAppend_names (buildNewOpMap newEntries) _ hinv]
    rw [hfilter]
    rfl
  refine ⟨?_, hnames, ?_⟩
  · rw [mergeHarEntries]
    rw [List.length_append]
    rw [mergeWalk_length (buildNewOpMap newEntries) existingEntries []]
    rw [mergeAppend_length (buildNewOpMap newEntries)]
    rw [hfilter]
  · intro hex
    rw [hnames]
    refine List.Nodup.append hex ?_ ?_
    · exact List.Nodup.filter _ (buildNewOpMap_keys_nodup newEntries)
    · intro j hj1 hj2
      have := List.of_mem_filter hj2
      simp only [decide_eq_true_eq] at this
      exact this hj1

/-- Closed instance of merge_cardinality_amended: one existing GetA exchange
merged with a new archive carrying GetA and GetThing keeps one exchange per
name and stays duplicate-free. -/
theorem merge_cardinality_amended_witness :
    (entryNames [harEntryA0]).Nodup ∧
    (entryNames (mergeHarEntries [harEntryA0]
      [harEntryA1, harEntryThing])).Nodup :=
  ⟨by decide,
   (merge_cardinality_amended [harEntryA0] [harEntryA1, harEntryThing]).2.2
     (by decide)⟩

end MockPipeline
